import Mathlib

/-!
A shallow embedding of the hierarchical state machine engine of this
repository: the C core (`src/smf.c`) and the C++ machine
(`include/hsm/hsm.hpp`).

States are identified by natural numbers.  The state table (`smf_state_t`)
becomes an environment of total functions: `parent` and `initial` links
(`none` models a NULL pointer) and the three optional hooks.  Hook bodies
are application code, outside the engine; they are modelled by small action
values: entry/exit hooks may do nothing or call `smf_set_terminate`, run
hooks may in addition call `smf_set_state` (which the C engine executes
immediately, inside the hook).  A ghost `log` field records every hook
invocation so that ordering claims can be stated.

All parent-chain walks in the C code are `for (; s; s = s->parent)` loops;
they terminate only for acyclic chains.  They are modelled with an explicit
fuel counter (`SmfEnv.fuel`); a walk that runs out of fuel behaves like a
walk that reached a NULL pointer, which coincides with the C behaviour
whenever the fuel exceeds the length of the chain being walked (the
hypotheses of the theorems below guarantee this).
-/

inductive SmfResult where
  | handled
  | propagate
deriving DecidableEq, Repr

inductive HookEv where
  | entry (s : Nat)
  | exit (s : Nat)
  | run (s : Nat)
deriving DecidableEq, Repr

/-- Behaviour of an entry or exit hook: do nothing, or call `smf_set_terminate`. -/
inductive HookAct where
  | nop
  | term (v : Int)
deriving DecidableEq, Repr

/-- Behaviour of a run hook: optionally call `smf_set_terminate` or
`smf_set_state`, then return handled/propagate. -/
inductive RunAct where
  | ret (r : SmfResult)
  | term (v : Int) (r : SmfResult)
  | trans (t : Nat) (r : SmfResult)
deriving DecidableEq, Repr

/-- The state table: `smf_state_t` nodes addressed by `Nat` identifiers. -/
structure SmfEnv where
  parent : Nat → Option Nat
  initial : Nat → Option Nat
  entry : Nat → Option HookAct
  run : Nat → Option RunAct
  exit : Nat → Option HookAct
  fuel : Nat

/-- `smf_ctx_t`, plus the ghost `log` of hook invocations. -/
structure SmfCtx where
  current : Option Nat
  previous : Option Nat
  executing : Option Nat
  terminate_val : Int
  new_state : Bool
  terminate : Bool
  is_exit : Bool
  handled : Bool
  log : List HookEv
deriving DecidableEq, Repr

/-- `smf__is_descendant_of`: walk `state`'s parent chain looking for `target`. -/
def is_descendant_of (env : SmfEnv) : Nat → Option Nat → Option Nat → Bool
  | 0, _, _ => false
  | _, none, _ => false
  | fuel + 1, some s, target =>
    if target = some s then true else is_descendant_of env fuel (env.parent s) target

/-- `smf__get_child_of`: walk `states`'s parent chain and return the node
whose parent is `parent`. -/
def get_child_of (env : SmfEnv) : Nat → Option Nat → Option Nat → Option Nat
  | 0, _, _ => none
  | _, none, _ => none
  | fuel + 1, some s, parent =>
    if env.parent s = parent then some s else get_child_of env fuel (env.parent s) parent

/-- The loop of `smf__get_lca_of`: walk the proper ancestors of the source. -/
def lca_loop (env : SmfEnv) : Nat → Option Nat → Nat → Option Nat
  | 0, _, _ => none
  | _, none, _ => none
  | fuel + 1, some a, dest =>
    if is_descendant_of env env.fuel (some dest) (some a) then some a
    else lca_loop env fuel (env.parent a) dest

/-- `smf__get_lca_of`. -/
def get_lca_of (env : SmfEnv) (source dest : Nat) : Option Nat :=
  lca_loop env env.fuel (env.parent source) dest

/-- `smf__get_topmost_of`.  Note that the C code computes the boundary from
`ctx->executing`, the state whose hook requested the transition. -/
def get_topmost_of (env : SmfEnv) (executing : Option Nat) (new_state : Nat) : Option Nat :=
  if is_descendant_of env env.fuel executing (some new_state) then some new_state
  else if is_descendant_of env env.fuel (some new_state) executing then executing
  else
    match executing with
    | some e => get_lca_of env e new_state
    | none => none

/-- The `while (new_state->initial) new_state = new_state->initial;` loop. -/
def resolve_initial (env : SmfEnv) : Nat → Nat → Nat
  | 0, s => s
  | fuel + 1, s =>
    match env.initial s with
    | none => s
    | some c => resolve_initial env fuel c

/-- `smf_set_terminate`. -/
def smf_set_terminate (ctx : SmfCtx) (v : Int) : SmfCtx :=
  { ctx with terminate := true, terminate_val := v }

/-- Invoke an entry or exit hook: record the event, then apply the action. -/
def run_hook_act (ev : HookEv) (act : HookAct) (ctx : SmfCtx) : SmfCtx :=
  let ctx := { ctx with log := ctx.log ++ [ev] }
  match act with
  | HookAct.nop => ctx
  | HookAct.term v => smf_set_terminate ctx v

/-- The loop of `smf__execute_all_exit_actions`: walk from the cursor up to
(excluding) `topmost`, running exit hooks.  Returns `true` if a hook set the
termination flag. -/
def exit_loop (env : SmfEnv) : Nat → Option Nat → Option Nat → SmfCtx → Bool × SmfCtx
  | 0, _, _, ctx => (false, ctx)
  | _, none, _, ctx => (false, ctx)
  | fuel + 1, some s, topmost, ctx =>
    if some s = topmost then (false, ctx)
    else
      match env.exit s with
      | none => exit_loop env fuel (env.parent s) topmost ctx
      | some act =>
        let ctx := { ctx with executing := some s }
        let ctx := run_hook_act (HookEv.exit s) act ctx
        if ctx.terminate then (true, ctx)
        else exit_loop env fuel (env.parent s) topmost ctx

/-- `smf__execute_all_exit_actions`: run the loop, then restore
`ctx->executing` to its saved value (the C code restores it on both the
terminate path and the normal path). -/
def execute_all_exit_actions (env : SmfEnv) (ctx : SmfCtx) (topmost : Option Nat) :
    Bool × SmfCtx :=
  let state := ctx.executing
  let r := exit_loop env env.fuel ctx.current topmost ctx
  (r.1, { r.2 with executing := state })

/-- The body of one iteration of the loop in `smf__execute_all_entry_actions`
(and also of its final block, which repeats the same code on `new_state`):
track the state in `ctx->executing`, run its entry hook if present, and on
termination restore `ctx->executing = ctx->current` and signal the abort. -/
def entry_step (env : SmfEnv) (s : Nat) (ctx : SmfCtx) : Bool × SmfCtx :=
  let ctx := { ctx with executing := some s }
  match env.entry s with
  | none => (false, ctx)
  | some act =>
    let ctx := run_hook_act (HookEv.entry s) act ctx
    if ctx.terminate then (true, { ctx with executing := ctx.current })
    else (false, ctx)

/-- The loop of `smf__execute_all_entry_actions`: descend from the direct
child of topmost toward `new_state` (exclusive), running entry hooks. -/
def entry_loop (env : SmfEnv) : Nat → Option Nat → Nat → SmfCtx → Bool × SmfCtx
  | 0, _, _, ctx => (false, ctx)
  | _, none, _, ctx => (false, ctx)
  | fuel + 1, some s, new_state, ctx =>
    if s = new_state then (false, ctx)
    else
      let st := entry_step env s ctx
      if st.1 then st
      else entry_loop env fuel (get_child_of env env.fuel (some new_state) (some s)) new_state st.2

/-- `smf__execute_all_entry_actions`: the loop, then the same step on
`new_state` itself, then `ctx->executing = ctx->current` on the normal
path. -/
def execute_all_entry_actions (env : SmfEnv) (ctx : SmfCtx) (new_state : Nat)
    (topmost : Option Nat) : Bool × SmfCtx :=
  if some new_state = topmost then (false, ctx)
  else
    let lr := entry_loop env env.fuel (get_child_of env env.fuel (some new_state) topmost)
      new_state ctx
    if lr.1 then lr
    else
      let st := entry_step env new_state lr.2
      if st.1 then st
      else (false, { st.2 with executing := st.2.current })

/-- The self-transition special case of `smf_set_state`: when the state
that requested the transition (`ctx->executing`) equals the target, invoke
the given hook of the target (if present) and check the termination flag
afterwards. -/
def self_hook_step (ns : Nat) (hk : Option HookAct) (ev : HookEv) (ctx : SmfCtx) :
    Bool × SmfCtx :=
  if ctx.executing = some ns then
    match hk with
    | some act =>
      let c := run_hook_act ev act ctx
      (c.terminate, c)
    | none => (false, ctx)
  else (false, ctx)

/-- `smf_set_state`. -/
def smf_set_state (env : SmfEnv) (ctx : SmfCtx) (new_state : Option Nat) : Int × SmfCtx :=
  match new_state with
  | none => (-1, ctx)
  | some ns =>
    if ctx.is_exit then (-1, ctx)
    else
      let topmost := get_topmost_of env ctx.executing ns
      let ctx1 := { ctx with is_exit := true, new_state := true }
      let er := execute_all_exit_actions env ctx1 topmost
      if er.1 then (0, er.2)
      else
        let sx := self_hook_step ns (env.exit ns) (HookEv.exit ns) er.2
        if sx.1 then (0, sx.2)
        else
          let ctx3 := { sx.2 with is_exit := false }
          let se := self_hook_step ns (env.entry ns) (HookEv.entry ns) ctx3
          if se.1 then (0, se.2)
          else
            let ctx4 := se.2
            let resolved := resolve_initial env env.fuel ns
            let ctx5 :=
              { ctx4 with
                previous := ctx4.current
                current := some resolved
                executing := some resolved }
            let ee := execute_all_entry_actions env ctx5 resolved topmost
            (0, ee.2)

/-- Invoke a run hook: record the event, then apply the action.  A `trans`
action performs the `smf_set_state` call inside the hook, exactly as the C
engine does (the call is executed immediately, not deferred). -/
def run_run_act (env : SmfEnv) (s : Nat) (act : RunAct) (ctx : SmfCtx) : SmfResult × SmfCtx :=
  let ctx := { ctx with log := ctx.log ++ [HookEv.run s] }
  match act with
  | RunAct.ret r => (r, ctx)
  | RunAct.term v r => (r, smf_set_terminate ctx v)
  | RunAct.trans t r => (r, (smf_set_state env ctx (some t)).2)

/-- The loop of `smf__execute_ancestor_run_actions`. -/
def ancestor_run_loop (env : SmfEnv) : Nat → Option Nat → SmfCtx → Bool × SmfCtx
  | 0, _, ctx => (false, { ctx with executing := ctx.current })
  | _, none, ctx => (false, { ctx with executing := ctx.current })
  | fuel + 1, some s, ctx =>
    let ctx := { ctx with executing := some s }
    match env.run s with
    | none => ancestor_run_loop env fuel (env.parent s) ctx
    | some act =>
      let r := run_run_act env s act ctx
      let ctx := if r.1 = SmfResult.handled then { r.2 with handled := true } else r.2
      if ctx.terminate then (true, { ctx with executing := ctx.current })
      else if ctx.new_state || ctx.handled then (false, { ctx with executing := ctx.current })
      else ancestor_run_loop env fuel (env.parent s) ctx

/-- `smf__execute_ancestor_run_actions`. -/
def execute_ancestor_run_actions (env : SmfEnv) (ctx : SmfCtx) : Bool × SmfCtx :=
  if ctx.terminate then (true, ctx)
  else if ctx.new_state || ctx.handled then (false, ctx)
  else
    match ctx.current with
    | none => (false, { ctx with executing := ctx.current })
    | some c => ancestor_run_loop env env.fuel (env.parent c) ctx

/-- `smf__clear_internal_state`. -/
def clear_internal_state (ctx : SmfCtx) : SmfCtx :=
  { ctx with is_exit := false, terminate := false, handled := false, new_state := false }

/-- `smf_run_state`: one dispatch cycle. -/
def smf_run_state (env : SmfEnv) (ctx : SmfCtx) : Int × SmfCtx :=
  if ctx.terminate then (ctx.terminate_val, ctx)
  else
    let ctx := clear_internal_state ctx
    let ctx := { ctx with executing := ctx.current }
    let ctx :=
      match ctx.current with
      | none => ctx
      | some c =>
        match env.run c with
        | none => ctx
        | some act =>
          let r := run_run_act env c act ctx
          if r.1 = SmfResult.handled then { r.2 with handled := true } else r.2
    let r := execute_ancestor_run_actions env ctx
    if r.1 then (r.2.terminate_val, r.2) else (0, r.2)

/-! ### Chains and hook-event bookkeeping

`UpChain env c l t` states that starting at cursor `c` and repeatedly
following `parent` links visits exactly the states in `l` before reaching
`t` (which is not visited).  This is the shape every `for (; s && s != top;
s = s->parent)` walk of the C code traverses. -/

inductive UpChain (env : SmfEnv) : Option Nat → List Nat → Option Nat → Prop where
  | nil (t : Option Nat) : UpChain env t [] t
  | cons (s : Nat) (l : List Nat) (t : Option Nat) :
      some s ≠ t → UpChain env (env.parent s) l t → UpChain env (some s) (s :: l) t

/-- The exit events produced by walking `l` (only states with an exit hook
produce an event). -/
def exitEvs (env : SmfEnv) (l : List Nat) : List HookEv :=
  l.filterMap (fun s => (env.exit s).map (fun _ => HookEv.exit s))

/-- The entry events produced by walking `l` (only states with an entry hook
produce an event). -/
def entryEvs (env : SmfEnv) (l : List Nat) : List HookEv :=
  l.filterMap (fun s => (env.entry s).map (fun _ => HookEv.entry s))

/-- What `exit_loop` does to the context once the walk is known to traverse
the list `l`: process the states of `l` in order. -/
def exit_fold (env : SmfEnv) : List Nat → SmfCtx → Bool × SmfCtx
  | [], ctx => (false, ctx)
  | s :: l, ctx =>
    match env.exit s with
    | none => exit_fold env l ctx
    | some act =>
      let ctx := { ctx with executing := some s }
      let ctx := run_hook_act (HookEv.exit s) act ctx
      if ctx.terminate then (true, ctx)
      else exit_fold env l ctx

/-- The loop part of the entry phase as a fold over the execution order. -/
def entry_loop_fold (env : SmfEnv) : List Nat → SmfCtx → Bool × SmfCtx
  | [], ctx => (false, ctx)
  | s :: r, ctx =>
    let st := entry_step env s ctx
    if st.1 then st else entry_loop_fold env r st.2

/-- The whole entry phase (loop plus the final target state) as a fold over
the execution order; on normal completion `executing` is restored to
`current`, matching the tail of `smf__execute_all_entry_actions`. -/
def entry_fold (env : SmfEnv) (r : List Nat) (ctx : SmfCtx) : Bool × SmfCtx :=
  let st := entry_loop_fold env r ctx
  if st.1 then st else (false, { st.2 with executing := st.2.current })

/-! ### The C++ machine (`include/hsm/hsm.hpp`)

States are `Nat` identifiers; `0` is the built-in root state (`root_`,
depth 0, no parent).  Registered states are exactly those with
`registered s = true`.  Exceptions thrown by the C++ code are modelled with
`Except`.  Entry/exit hooks (`on_entry`/`on_exit`) may do nothing, call
`stop()`, or call `transition(t)`; `handle` hooks additionally return
`Result::Done` or `Result::Pass`.  A ghost `log` and a ghost transition
counter `tcount` (incremented exactly where `process_pending` increments its
local `count`) instrument the machine. -/

inductive HResult where
  | done
  | pass
deriving DecidableEq, Repr

inductive HAct where
  | nop
  | stop
  | trans (t : Nat)
deriving DecidableEq, Repr

inductive HRunAct where
  | ret (r : HResult)
  | stop (r : HResult)
  | trans (t : Nat) (r : HResult)
deriving DecidableEq, Repr

inductive HErr where
  | targetNotFound
  | transDuringExit
  | loopExceeded
deriving DecidableEq, Repr

inductive HsmPhase where
  | idle
  | run
  | entry
  | exit
deriving DecidableEq, Repr

structure HsmEnv where
  registered : Nat → Bool
  parent : Nat → Option Nat
  depth : Nat → Nat
  entry : Nat → HAct
  exit : Nat → HAct
  handle : Nat → HRunAct
  fuel : Nat

structure HsmMachine where
  active : Nat
  executing : Option Nat
  pending : Option Nat
  has_pending : Bool
  started : Bool
  terminated : Bool
  handled : Bool
  phase : HsmPhase
  tcount : Nat
  log : List HookEv
deriving DecidableEq, Repr

/-- `Machine::transition`: record the request in the pending slot.  It never
runs any hook and never calls `do_transition`. -/
def hsm_transition (env : HsmEnv) (m : HsmMachine) (t : Nat) : Except HErr HsmMachine :=
  if m.phase = HsmPhase.exit then Except.error HErr.transDuringExit
  else if env.registered t then Except.ok { m with pending := some t, has_pending := true }
  else Except.error HErr.targetNotFound

/-- Invoke an `on_entry`/`on_exit` hook. -/
def hsm_apply_act (env : HsmEnv) (ev : HookEv) (act : HAct) (m : HsmMachine) :
    Except HErr HsmMachine :=
  let m := { m with log := m.log ++ [ev] }
  match act with
  | HAct.nop => Except.ok m
  | HAct.stop => Except.ok { m with terminated := true }
  | HAct.trans t => hsm_transition env m t

/-- Invoke a `handle` hook. -/
def hsm_apply_run (env : HsmEnv) (s : Nat) (act : HRunAct) (m : HsmMachine) :
    Except HErr (HResult × HsmMachine) :=
  let m := { m with log := m.log ++ [HookEv.run s] }
  match act with
  | HRunAct.ret r => Except.ok (r, m)
  | HRunAct.stop r => Except.ok (r, { m with terminated := true })
  | HRunAct.trans t r =>
    match hsm_transition env m t with
    | Except.error e => Except.error e
    | Except.ok m => Except.ok (r, m)

/-- Dereference a parent pointer where the C++ code assumes it is non-null
(the `lca` walks); a null parent there is a configuration defect, modelled
as the root. -/
def hsm_parent_deref (env : HsmEnv) (s : Nat) : Nat := (env.parent s).getD 0

/-- `while (a->depth_ > limit) a = a->parent_;` (the two depth-equalising
loops of `Machine::lca`). -/
def hsm_up_while_deeper (env : HsmEnv) : Nat → Nat → Nat → Nat
  | 0, a, _ => a
  | fuel + 1, a, limit =>
    if limit < env.depth a then hsm_up_while_deeper env fuel (hsm_parent_deref env a) limit
    else a

/-- `while (a != b) { a = a->parent_; b = b->parent_; }` of `Machine::lca`. -/
def hsm_lca_join (env : HsmEnv) : Nat → Nat → Nat → Nat
  | 0, a, _ => a
  | fuel + 1, a, b =>
    if a ≠ b then hsm_lca_join env fuel (hsm_parent_deref env a) (hsm_parent_deref env b)
    else a

/-- `Machine::lca`. -/
def hsm_lca (env : HsmEnv) (a b : Nat) : Nat :=
  let a2 := hsm_up_while_deeper env env.fuel a (env.depth b)
  let b2 := hsm_up_while_deeper env env.fuel b (env.depth a2)
  hsm_lca_join env env.fuel a2 b2

/-- The downward path built through the `path_next_` pointers: the states
from the direct child of `common` down to `dest`, in entry order. -/
def hsm_down_path (env : HsmEnv) : Nat → Nat → Nat → List Nat
  | 0, _, _ => []
  | fuel + 1, dest, common =>
    if dest = common then []
    else hsm_down_path env fuel (hsm_parent_deref env dest) common ++ [dest]

/-- The exit loop of `Machine::do_transition`; the `Bool` is true when a
hook terminated the machine and the rest of the transition is skipped. -/
def hsm_exit_walk (env : HsmEnv) : Nat → Nat → Nat → HsmMachine →
    Except HErr (Bool × HsmMachine)
  | 0, _, _, m => Except.ok (false, m)
  | fuel + 1, s, common, m =>
    if s = common then Except.ok (false, m)
    else
      let m := { m with executing := some s }
      match hsm_apply_act env (HookEv.exit s) (env.exit s) m with
      | Except.error e => Except.error e
      | Except.ok m =>
        if m.terminated then Except.ok (true, { m with phase := HsmPhase.idle })
        else hsm_exit_walk env fuel (hsm_parent_deref env s) common
          { m with active := hsm_parent_deref env s }

/-- The entry loop of `Machine::do_transition`, walking the `path_next_`
chain; aborts as soon as the machine terminates or a transition becomes
pending. -/
def hsm_entry_walk (env : HsmEnv) : List Nat → Nat → HsmMachine → Except HErr HsmMachine
  | [], _, m => Except.ok m
  | s :: rest, dest, m =>
    let m := { m with executing := some s }
    match hsm_apply_act env (HookEv.entry s) (env.entry s) m with
    | Except.error e => Except.error e
    | Except.ok m =>
      let m := { m with active := s }
      if m.terminated || m.has_pending then Except.ok { m with phase := HsmPhase.idle }
      else if s = dest then Except.ok m
      else hsm_entry_walk env rest dest m

/-- `Machine::do_transition`. -/
def hsm_do_transition (env : HsmEnv) (m : HsmMachine) (dest : Nat) : Except HErr HsmMachine :=
  let source :=
    match m.phase, m.executing with
    | HsmPhase.entry, some e => e
    | _, _ => m.active
  if source = dest then
    let m := { m with executing := some source }
    match hsm_apply_act env (HookEv.exit source) (env.exit source) m with
    | Except.error e => Except.error e
    | Except.ok m =>
      if m.terminated then Except.ok m
      else
        let m := { m with executing := some dest }
        hsm_apply_act env (HookEv.entry dest) (env.entry dest) m
  else
    let common := hsm_lca env source dest
    let m := { m with phase := HsmPhase.exit }
    match hsm_exit_walk env env.fuel source common m with
    | Except.error e => Except.error e
    | Except.ok (true, m) => Except.ok m
    | Except.ok (false, m) =>
      if dest ≠ common then
        match hsm_entry_walk env (hsm_down_path env env.fuel dest common) dest
          { m with phase := HsmPhase.entry } with
        | Except.error e => Except.error e
        | Except.ok m => Except.ok { m with phase := HsmPhase.idle }
      else Except.ok { m with phase := HsmPhase.idle }

/-- The drain loop of `Machine::process_pending`.  The C++ loop is bounded
by its own `count` check (`MAX_TRANSITIONS = 100`); the structural `fuel`
argument is always called with `101`, which the count check makes
unreachable, so the fuel never runs out before the loop decides. -/
def hsm_process_pending_loop (env : HsmEnv) : Nat → HsmMachine → Nat → Except HErr HsmMachine
  | 0, m, _ => Except.ok m
  | fuel + 1, m, count =>
    if m.has_pending && !m.terminated then
      if 100 < count + 1 then Except.error HErr.loopExceeded
      else
        match m.pending with
        | none => Except.ok m
        | some dest =>
          let m := { m with has_pending := false, pending := none, tcount := m.tcount + 1 }
          match hsm_do_transition env m dest with
          | Except.error e => Except.error e
          | Except.ok m => hsm_process_pending_loop env fuel m (count + 1)
    else Except.ok m

/-- `Machine::process_pending`. -/
def hsm_process_pending (env : HsmEnv) (m : HsmMachine) : Except HErr HsmMachine :=
  hsm_process_pending_loop env 101 m 0

/-- The propagation loop of `Machine::handle`. -/
def hsm_handle_walk (env : HsmEnv) : Nat → Option Nat → HsmMachine → Except HErr HsmMachine
  | 0, _, m => Except.ok m
  | _, none, m => Except.ok m
  | fuel + 1, some s, m =>
    let m := { m with executing := some s }
    match hsm_apply_run env s (env.handle s) m with
    | Except.error e => Except.error e
    | Except.ok (r, m) =>
      if r = HResult.done then Except.ok { m with handled := true }
      else if m.has_pending || m.terminated then Except.ok m
      else hsm_handle_walk env fuel (env.parent s) m

/-- `Machine::handle`: dispatch one event. -/
def hsm_handle (env : HsmEnv) (m : HsmMachine) : Except HErr HsmMachine :=
  if !m.started || m.terminated then Except.ok m
  else
    let m := { m with handled := false, phase := HsmPhase.run }
    match hsm_handle_walk env env.fuel (some m.active) m with
    | Except.error e => Except.error e
    | Except.ok m => hsm_process_pending env { m with phase := HsmPhase.idle }

/-- `Machine::start`, after the configuration callback has populated the
registry: enter the initial state and drain pending transitions. -/
def hsm_start (env : HsmEnv) (init : Nat) : Except HErr HsmMachine :=
  if env.registered init then
    let m : HsmMachine :=
      { active := 0, executing := none, pending := none, has_pending := false,
        started := true, terminated := false, handled := false, phase := HsmPhase.idle,
        tcount := 0, log := [] }
    match hsm_do_transition env m init with
    | Except.error e => Except.error e
    | Except.ok m => hsm_process_pending env m
  else Except.error HErr.targetNotFound

/-! ### Spec-side notions

For comparing the code with the specification's wording: the (fuel-bounded)
ancestor chain of a state, the boundary rule exactly as the specification
words it (computed from the *current leaf*), and the boundary rule restated
over ancestor chains. -/

/-- The state at the cursor together with all its ancestors, in
child-to-parent order (fuel-bounded). -/
def opt_chain (env : SmfEnv) : Nat → Option Nat → List Nat
  | 0, _ => []
  | _, none => []
  | fuel + 1, some s => s :: opt_chain env fuel (env.parent s)

/-- The boundary ("topmost") rule exactly as claim C4 states it: computed
from the current leaf and the requested destination. -/
def topmost_per_claim (env : SmfEnv) (current_leaf dest : Nat) : Option Nat :=
  if is_descendant_of env env.fuel (some current_leaf) (some dest) then some dest
  else if is_descendant_of env env.fuel (some dest) (some current_leaf) then some current_leaf
  else get_lca_of env current_leaf dest

/-- The boundary rule restated over ancestor chains, with the state that
requested the transition (`ctx.executing`) as the source: destination if it
is an ancestor of (or equal to) the requester; the requester if it is an
ancestor of (or equal to) the destination; otherwise the first proper
ancestor of the requester that is an ancestor of (or equal to) the
destination, i.e. their LCA. -/
def spec_topmost_exec (env : SmfEnv) (e d : Nat) : Option Nat :=
  if d ∈ opt_chain env env.fuel (some e) then some d
  else if e ∈ opt_chain env env.fuel (some d) then some e
  else (opt_chain env env.fuel (env.parent e)).find?
    (fun a => decide (a ∈ opt_chain env env.fuel (some d)))

/-! ### Concrete configurations used by the witnesses and counterexamples -/

/-- `Root(0) > Parent(1) > { A(2), B(3) }`; every state has no-op entry and
exit hooks and a propagating run hook. -/
def envW : SmfEnv :=
  { parent := fun s => match s with | 1 => some 0 | 2 => some 1 | 3 => some 1 | _ => none
    initial := fun _ => none
    entry := fun _ => some HookAct.nop
    run := fun _ => some (RunAct.ret SmfResult.propagate)
    exit := fun _ => some HookAct.nop
    fuel := 10 }

/-- Context sitting at leaf `A(2)` of `envW`, between dispatch cycles. -/
def ctxW : SmfCtx :=
  { current := some 2, previous := none, executing := some 2, terminate_val := 0,
    new_state := false, terminate := false, is_exit := false, handled := false, log := [] }

/-- Like `envW`, but `A(2)`'s run hook requests a transition to `B(3)` and
`A(2)`'s exit hook terminates the machine with value `7`. -/
def envC3 : SmfEnv :=
  { parent := fun s => match s with | 1 => some 0 | 2 => some 1 | 3 => some 1 | _ => none
    initial := fun _ => none
    entry := fun _ => some HookAct.nop
    run := fun s => match s with
      | 2 => some (RunAct.trans 3 SmfResult.propagate)
      | _ => some (RunAct.ret SmfResult.propagate)
    exit := fun s => match s with
      | 2 => some (HookAct.term 7)
      | _ => some HookAct.nop
    fuel := 10 }

/-- `Root(0) > { Leaf(1) }`; the root's run hook requests a transition back
to leaf `1` while the leaf's run hook propagates. -/
def envC4 : SmfEnv :=
  { parent := fun s => match s with | 1 => some 0 | _ => none
    initial := fun _ => none
    entry := fun _ => some HookAct.nop
    run := fun s => match s with
      | 0 => some (RunAct.trans 1 SmfResult.propagate)
      | _ => some (RunAct.ret SmfResult.propagate)
    exit := fun _ => some HookAct.nop
    fuel := 5 }

/-- Context sitting at leaf `1` of `envC4`. -/
def ctxC4 : SmfCtx :=
  { current := some 1, previous := none, executing := some 1, terminate_val := 0,
    new_state := false, terminate := false, is_exit := false, handled := false, log := [] }

/-- `Root(0) > { P(1) > X(2) > Y(3), L(4) }` where the initial chain of the
composite `P` is `P(1) → X(2) → Y(3)`. -/
def envC5 : SmfEnv :=
  { parent := fun s => match s with | 1 => some 0 | 2 => some 1 | 3 => some 2 | 4 => some 0 | _ => none
    initial := fun s => match s with | 1 => some 2 | 2 => some 3 | _ => none
    entry := fun _ => some HookAct.nop
    run := fun _ => some (RunAct.ret SmfResult.propagate)
    exit := fun _ => some HookAct.nop
    fuel := 10 }

/-- Context sitting at leaf `L(4)` of `envC5`. -/
def ctxC5 : SmfCtx :=
  { current := some 4, previous := none, executing := some 4, terminate_val := 0,
    new_state := false, terminate := false, is_exit := false, handled := false, log := [] }

/-- `Root(0) > Leaf(1)`; the leaf's run hook handles the event. -/
def envC6a : SmfEnv :=
  { parent := fun s => match s with | 1 => some 0 | _ => none
    initial := fun _ => none
    entry := fun _ => some HookAct.nop
    run := fun s => match s with
      | 1 => some (RunAct.ret SmfResult.handled)
      | _ => some (RunAct.ret SmfResult.propagate)
    exit := fun _ => some HookAct.nop
    fuel := 5 }

/-- `Root(0) > Leaf(1)`; the leaf propagates, the root handles. -/
def envC6b : SmfEnv :=
  { parent := fun s => match s with | 1 => some 0 | _ => none
    initial := fun _ => none
    entry := fun _ => some HookAct.nop
    run := fun s => match s with
      | 1 => some (RunAct.ret SmfResult.propagate)
      | _ => some (RunAct.ret SmfResult.handled)
    exit := fun _ => some HookAct.nop
    fuel := 5 }

/-- `Root(0) > Leaf(1)`; the leaf's run hook requests a transition (and
still propagates). -/
def envC6c : SmfEnv :=
  { parent := fun s => match s with | 1 => some 0 | _ => none
    initial := fun _ => none
    entry := fun _ => some HookAct.nop
    run := fun s => match s with
      | 1 => some (RunAct.trans 1 SmfResult.propagate)
      | _ => some (RunAct.ret SmfResult.handled)
    exit := fun _ => some HookAct.nop
    fuel := 5 }

/-- `Root(0) > Mid(1) > Leaf(2)`; the leaf propagates, `Mid` terminates
with value `9` (and propagates), the root would handle. -/
def envC6d : SmfEnv :=
  { parent := fun s => match s with | 1 => some 0 | 2 => some 1 | _ => none
    initial := fun _ => none
    entry := fun _ => some HookAct.nop
    run := fun s => match s with
      | 2 => some (RunAct.ret SmfResult.propagate)
      | 1 => some (RunAct.term 9 SmfResult.propagate)
      | _ => some (RunAct.ret SmfResult.handled)
    exit := fun _ => some HookAct.nop
    fuel := 5 }

/-- A single root/leaf state `5` with no-op hooks, for the self-transition
witness. -/
def envC7 : SmfEnv :=
  { parent := fun _ => none
    initial := fun _ => none
    entry := fun _ => some HookAct.nop
    run := fun _ => some (RunAct.ret SmfResult.propagate)
    exit := fun _ => some HookAct.nop
    fuel := 5 }

/-- Context sitting at state `5` of `envC7`. -/
def ctxC7 : SmfCtx :=
  { current := some 5, previous := none, executing := some 5, terminate_val := 0,
    new_state := false, terminate := false, is_exit := false, handled := false, log := [] }

/-- Two disjoint one-state trees: roots `0` and `1`. -/
def envC8 : SmfEnv :=
  { parent := fun _ => none
    initial := fun _ => none
    entry := fun _ => some HookAct.nop
    run := fun _ => some (RunAct.ret SmfResult.propagate)
    exit := fun _ => some HookAct.nop
    fuel := 5 }

/-- Context sitting at root `0` of `envC8`. -/
def ctxC8 : SmfCtx :=
  { current := some 0, previous := none, executing := some 0, terminate_val := 0,
    new_state := false, terminate := false, is_exit := false, handled := false, log := [] }

/-- `Root(0) > { A(1), P(2) > X(3) }` with `P`'s initial child `X`; `P`'s
entry hook terminates the machine with value `5`. -/
def envC9 : SmfEnv :=
  { parent := fun s => match s with | 1 => some 0 | 2 => some 0 | 3 => some 2 | _ => none
    initial := fun s => match s with | 2 => some 3 | _ => none
    entry := fun s => match s with
      | 2 => some (HookAct.term 5)
      | _ => some HookAct.nop
    run := fun _ => some (RunAct.ret SmfResult.propagate)
    exit := fun _ => some HookAct.nop
    fuel := 10 }

/-- Context sitting at leaf `A(1)` of `envC9`. -/
def ctxC9 : SmfCtx :=
  { current := some 1, previous := none, executing := some 1, terminate_val := 0,
    new_state := false, terminate := false, is_exit := false, handled := false, log := [] }

/-- C++ machine configuration with two sibling states `1` and `2` under the
root whose entry hooks request transitions to each other, forming a cycle. -/
def hsmCycEnv : HsmEnv :=
  { registered := fun s => s = 1 || s = 2
    parent := fun s => match s with | 1 => some 0 | 2 => some 0 | _ => none
    depth := fun s => match s with | 1 => 1 | 2 => 1 | _ => 0
    entry := fun s => match s with | 1 => HAct.trans 2 | 2 => HAct.trans 1 | _ => HAct.nop
    exit := fun _ => HAct.nop
    handle := fun _ => HRunAct.ret HResult.pass
    fuel := 4 }

/-- A started, idle C++ machine sitting at state `1` of `hsmCycEnv`. -/
def hsmM0 : HsmMachine :=
  { active := 1, executing := some 1, pending := none, has_pending := false,
    started := true, terminated := false, handled := false, phase := HsmPhase.idle,
    tcount := 0, log := [] }

/-! ### Basic facts about hook invocation -/

theorem run_hook_act_nop (ev : HookEv) (ctx : SmfCtx) :
    run_hook_act ev HookAct.nop ctx = { ctx with log := ctx.log ++ [ev] } := rfl

theorem run_hook_act_term (ev : HookEv) (v : Int) (ctx : SmfCtx) :
    run_hook_act ev (HookAct.term v) ctx =
      { ctx with
        terminate_val := v
        terminate := true
        log := ctx.log ++ [ev] } := rfl

/-! ### Inversion facts for chains -/

theorem upchain_nil_eq (env : SmfEnv) {c t : Option Nat} (h : UpChain env c [] t) : c = t := by
  cases h; rfl

theorem upchain_cons_parts (env : SmfEnv) {c : Option Nat} {s : Nat} {l : List Nat}
    {t : Option Nat} (h : UpChain env c (s :: l) t) :
    c = some s ∧ some s ≠ t ∧ UpChain env (env.parent s) l t := by
  cases h with
  | cons s l t hne h2 => exact ⟨rfl, hne, h2⟩

/-! ### Walks along parent chains -/

theorem get_child_of_chain (env : SmfEnv) :
    ∀ (c : Option Nat) (l : List Nat) (t : Option Nat),
      UpChain env c l t → l ≠ [] → ∀ (fuel : Nat), l.length < fuel →
      get_child_of env fuel c t = l.getLast? := by
  intro c l t h
  induction h with
  | nil t => intro hne; exact absurd rfl hne
  | cons s l t hne h ih =>
    intro _ fuel hlen
    match fuel, hlen with
    | f + 1, hlen =>
      rcases l with _ | ⟨s2, l2⟩
      · have hp : env.parent s = t := upchain_nil_eq env h
        simp [get_child_of, hp]
      · obtain ⟨hp, hne2, _⟩ := upchain_cons_parts env h
        simp only [get_child_of]
        rw [if_neg (by rw [hp]; exact hne2)]
        rw [ih (by simp) f (by simpa using Nat.lt_of_succ_lt_succ hlen)]
        simp [List.getLast?_cons_cons]

theorem upchain_concat (env : SmfEnv) :
    ∀ (l : List Nat) (c : Option Nat) (k : Nat) (t : Option Nat),
      UpChain env c (l ++ [k]) t → (∀ a ∈ l, a ≠ k) → UpChain env c l (some k) := by
  intro l
  induction l with
  | nil =>
    intro c k t h _
    obtain ⟨hc, -, -⟩ := upchain_cons_parts env h
    rw [hc]
    exact UpChain.nil (some k)
  | cons a l2 ih =>
    intro c k t h hmem
    obtain ⟨hc, -, h2⟩ := upchain_cons_parts env h
    rw [hc]
    exact UpChain.cons a l2 (some k)
      (by simpa using hmem a (List.mem_cons_self a l2))
      (ih (env.parent a) k t h2 (fun x hx => hmem x (List.mem_cons_of_mem a hx)))

/-! ### The exit phase as a fold over the exit chain -/

theorem exit_loop_chain (env : SmfEnv) :
    ∀ (c : Option Nat) (l : List Nat) (t : Option Nat),
      UpChain env c l t → ∀ (fuel : Nat), l.length < fuel → ∀ (ctx : SmfCtx),
      exit_loop env fuel c t ctx = exit_fold env l ctx := by
  intro c l t h
  induction h with
  | nil t =>
    intro fuel hlen ctx
    match fuel, hlen with
    | f + 1, _ =>
      cases t with
      | none => simp [exit_loop, exit_fold]
      | some s => simp [exit_loop, exit_fold]
  | cons s l t hne h ih =>
    intro fuel hlen ctx
    match fuel, hlen with
    | f + 1, hlen =>
      have hlen2 : l.length < f := by simpa using Nat.lt_of_succ_lt_succ hlen
      simp only [exit_loop, exit_fold]
      rw [if_neg hne]
      cases henv : env.exit s with
      | none => exact ih f hlen2 ctx
      | some act =>
        simp only
        split
        · rfl
        · exact ih f hlen2 _

theorem execute_all_exit_actions_chain (env : SmfEnv) (ctx : SmfCtx) (l : List Nat)
    (t : Option Nat) (h : UpChain env ctx.current l t) (hlen : l.length < env.fuel) :
    execute_all_exit_actions env ctx t =
      ((exit_fold env l ctx).1, { (exit_fold env l ctx).2 with executing := ctx.executing }) := by
  unfold execute_all_exit_actions
  rw [exit_loop_chain env ctx.current l t h env.fuel hlen ctx]

theorem exit_fold_nonterm (env : SmfEnv) :
    ∀ (l : List Nat) (ctx : SmfCtx), ctx.terminate = false →
      (∀ s ∈ l, env.exit s = none ∨ env.exit s = some HookAct.nop) →
      ∃ e, exit_fold env l ctx =
        (false, { ctx with log := ctx.log ++ exitEvs env l, executing := e }) := by
  intro l
  induction l with
  | nil =>
    intro ctx ht _
    exact ⟨ctx.executing, by simp [exit_fold, exitEvs]⟩
  | cons s l ih =>
    intro ctx ht hN
    obtain ⟨cu, pr, ex, tv, ns, tm, ie, hd, lg⟩ := ctx
    simp only at ht
    subst ht
    rcases hN s (List.mem_cons_self s l) with h0 | h0
    · obtain ⟨e, he⟩ := ih
        { current := cu, previous := pr, executing := ex, terminate_val := tv,
          new_state := ns, terminate := false, is_exit := ie, handled := hd, log := lg }
        rfl (fun x hx => hN x (List.mem_cons_of_mem s hx))
      refine ⟨e, ?_⟩
      simp only [exit_fold, h0]
      rw [he]
      simp [exitEvs, List.filterMap_cons, h0]
    · obtain ⟨e, he⟩ := ih
        { current := cu, previous := pr, executing := some s, terminate_val := tv,
          new_state := ns, terminate := false, is_exit := ie, handled := hd,
          log := lg ++ [HookEv.exit s] }
        rfl (fun x hx => hN x (List.mem_cons_of_mem s hx))
      refine ⟨e, ?_⟩
      simp only [exit_fold, h0, run_hook_act_nop]
      rw [if_neg Bool.false_ne_true]
      rw [he]
      simp [exitEvs, List.filterMap_cons, h0, List.append_assoc]

theorem exit_fold_term (env : SmfEnv) :
    ∀ (l1 : List Nat) (k : Nat) (l2 : List Nat) (v : Int) (ctx : SmfCtx),
      ctx.terminate = false →
      (∀ s ∈ l1, env.exit s = none ∨ env.exit s = some HookAct.nop) →
      env.exit k = some (HookAct.term v) →
      exit_fold env (l1 ++ k :: l2) ctx =
        (true,
          { ctx with
            executing := some k
            terminate_val := v
            terminate := true
            log := ctx.log ++ exitEvs env l1 ++ [HookEv.exit k] }) := by
  intro l1
  induction l1 with
  | nil =>
    intro k l2 v ctx ht _ hk
    obtain ⟨cu, pr, ex, tv, ns, tm, ie, hd, lg⟩ := ctx
    simp only at ht
    subst ht
    simp [exit_fold, hk, run_hook_act_term, exitEvs]
  | cons s l1 ih =>
    intro k l2 v ctx ht hN hk
    obtain ⟨cu, pr, ex, tv, ns, tm, ie, hd, lg⟩ := ctx
    simp only at ht
    subst ht
    rcases hN s (List.mem_cons_self s l1) with h0 | h0
    · have he := ih k l2 v
        { current := cu, previous := pr, executing := ex, terminate_val := tv,
          new_state := ns, terminate := false, is_exit := ie, handled := hd, log := lg }
        rfl (fun x hx => hN x (List.mem_cons_of_mem s hx)) hk
      simp only [List.cons_append, exit_fold, h0, List.append_eq]
      rw [he]
      simp [exitEvs, List.filterMap_cons, h0]
    · have he := ih k l2 v
        { current := cu, previous := pr, executing := some s, terminate_val := tv,
          new_state := ns, terminate := false, is_exit := ie, handled := hd,
          log := lg ++ [HookEv.exit s] }
        rfl (fun x hx => hN x (List.mem_cons_of_mem s hx)) hk
      simp only [List.cons_append, exit_fold, h0, run_hook_act_nop, List.append_eq]
      rw [if_neg Bool.false_ne_true]
      rw [he]
      simp [exitEvs, List.filterMap_cons, h0, List.append_assoc]

/-! ### The entry phase as a fold over the reversed entry chain -/

theorem entry_loop_self (env : SmfEnv) (n : Nat) (ctx : SmfCtx) :
    ∀ (fuel : Nat), 0 < fuel → entry_loop env fuel (some n) n ctx = (false, ctx) := by
  intro fuel hf
  match fuel, hf with
  | f + 1, _ => simp [entry_loop]

theorem entry_loop_fold_append (env : SmfEnv) :
    ∀ (r1 r2 : List Nat) (ctx : SmfCtx),
      entry_loop_fold env (r1 ++ r2) ctx =
        (if (entry_loop_fold env r1 ctx).1 then entry_loop_fold env r1 ctx
         else entry_loop_fold env r2 (entry_loop_fold env r1 ctx).2) := by
  intro r1
  induction r1 with
  | nil => intro r2 ctx; simp [entry_loop_fold]
  | cons s r1 ih =>
    intro r2 ctx
    simp only [List.cons_append, entry_loop_fold]
    cases hb : (entry_step env s ctx).1
    · simp only [hb, Bool.false_eq_true, if_false]
      exact ih r2 _
    · simp [hb]

theorem entry_loop_fold_single (env : SmfEnv) (n : Nat) (ctx : SmfCtx) :
    entry_loop_fold env [n] ctx = entry_step env n ctx := by
  rcases hst : entry_step env n ctx with ⟨b, c⟩
  cases b <;> simp [entry_loop_fold, hst]

theorem entry_loop_chain (env : SmfEnv) (n : Nat) :
    ∀ (l1 : List Nat) (c : Nat) (fuel : Nat) (ctx : SmfCtx),
      UpChain env (some n) (n :: l1) (some c) →
      c ∉ n :: l1 → (n :: l1).Nodup →
      (n :: l1).length < env.fuel → l1.length + 2 ≤ fuel →
      entry_loop env fuel (some c) n ctx = entry_loop_fold env (c :: l1.reverse) ctx := by
  intro l1
  induction l1 using List.reverseRecOn with
  | nil =>
    intro c fuel ctx h hc hnd hlenv hf
    obtain ⟨f, rfl⟩ : ∃ f, fuel = f + 2 := ⟨fuel - 2, by omega⟩
    have hcn : ¬(c = n) := by simpa using hc
    have hchild : get_child_of env env.fuel (some n) (some c) = some n := by
      rw [get_child_of_chain env (some n) [n] (some c) h (by simp) env.fuel (by simpa using hlenv)]
      simp
    simp only [entry_loop, if_neg hcn, hchild, List.reverse_nil, entry_loop_fold]
    cases hb : (entry_step env c ctx).1
    · simp [hb, entry_loop]
    · simp [hb]
  | append_singleton l2 a ih =>
    intro c fuel ctx h hc hnd hlenv hf
    obtain ⟨f, rfl⟩ : ∃ f, fuel = f + 1 := ⟨fuel - 1, by omega⟩
    have hcn : ¬(c = n) := fun e => hc (e ▸ List.mem_cons_self n (l2 ++ [a]))
    have h' : UpChain env (some n) ((n :: l2) ++ [a]) (some c) := by simpa using h
    have hnd' : ((n :: l2) ++ [a]).Nodup := by simpa using hnd
    obtain ⟨hndl, -, hdisj⟩ := List.nodup_append.mp hnd'
    have hanotin : a ∉ n :: l2 := fun hx => (List.disjoint_left.mp hdisj hx) (by simp)
    have hchain2 : UpChain env (some n) (n :: l2) (some a) :=
      upchain_concat env (n :: l2) (some n) a (some c) h' (fun x hx e => hanotin (e ▸ hx))
    have hchild : get_child_of env env.fuel (some n) (some c) = some a := by
      rw [get_child_of_chain env (some n) (n :: (l2 ++ [a])) (some c) h (by simp) env.fuel hlenv]
      rw [show (n :: (l2 ++ [a])) = (n :: l2) ++ [a] by simp]
      exact List.getLast?_concat _
    have hlen2 : (n :: l2).length < env.fuel := by
      simp only [List.length_cons, List.length_append, List.length_singleton] at hlenv ⊢
      omega
    have hf2 : l2.length + 2 ≤ f := by
      simp only [List.length_append, List.length_singleton] at hf
      omega
    have hrev : (l2 ++ [a]).reverse = a :: l2.reverse := by simp
    simp only [entry_loop, if_neg hcn, hchild, hrev, entry_loop_fold]
    cases hb : (entry_step env c ctx).1
    · simp only [hb, Bool.false_eq_true, if_false]
      exact ih a f _ hchain2 hanotin hndl hlen2 hf2
    · simp [hb]

theorem execute_all_entry_actions_chain (env : SmfEnv) (n : Nat) (t : Option Nat)
    (en : List Nat) (ctx : SmfCtx)
    (h : UpChain env (some n) en t) (hnd : en.Nodup) (hne : en ≠ [])
    (hlen : en.length + 1 < env.fuel) :
    execute_all_entry_actions env ctx n t = entry_fold env en.reverse ctx := by
  rcases en with _ | ⟨hd, rest⟩
  · exact absurd rfl hne
  obtain ⟨hh, hnet, h2⟩ := upchain_cons_parts env h
  have hn : n = hd := Option.some.inj hh
  subst hn
  rcases rest.eq_nil_or_concat' with rfl | ⟨l2, a, rfl⟩
  · have hchild : get_child_of env env.fuel (some n) t = some n := by
      rw [get_child_of_chain env (some n) [n] t h (by simp) env.fuel (Nat.lt_of_succ_lt hlen)]
      simp
    have hloop := entry_loop_self env n ctx env.fuel (by
      simp only [List.length_cons, List.length_nil] at hlen
      omega)
    simp only [execute_all_entry_actions, if_neg hnet, hchild, hloop, List.reverse_cons,
      List.reverse_nil, List.nil_append, entry_fold, entry_loop_fold]
    cases hb : (entry_step env n ctx).1
    · simp [hb]
    · simp [hb]
  · have hchild : get_child_of env env.fuel (some n) t = some a := by
      rw [get_child_of_chain env (some n) (n :: (l2 ++ [a])) t h (by simp) env.fuel
        (Nat.lt_of_succ_lt hlen)]
      rw [show (n :: (l2 ++ [a])) = (n :: l2) ++ [a] by simp]
      exact List.getLast?_concat _
    have hnd' : ((n :: l2) ++ [a]).Nodup := by simpa using hnd
    obtain ⟨hndl, -, hdisj⟩ := List.nodup_append.mp hnd'
    have hanotin : a ∉ n :: l2 := fun hx => (List.disjoint_left.mp hdisj hx) (by simp)
    have h' : UpChain env (some n) ((n :: l2) ++ [a]) t := by simpa using h
    have hchain2 : UpChain env (some n) (n :: l2) (some a) :=
      upchain_concat env (n :: l2) (some n) a t h' (fun x hx e => hanotin (e ▸ hx))
    have hlen2 : (n :: l2).length < env.fuel := by
      simp only [List.length_cons, List.length_append, List.length_singleton] at hlen ⊢
      omega
    have hf2 : l2.length + 2 ≤ env.fuel := by
      simp only [List.length_cons, List.length_append, List.length_singleton] at hlen
      omega
    have hloop := entry_loop_chain env n l2 a env.fuel ctx hchain2 hanotin hndl hlen2 hf2
    have hrev : (n :: (l2 ++ [a])).reverse = (a :: l2.reverse) ++ [n] := by simp
    rw [hrev]
    unfold entry_fold
    rw [entry_loop_fold_append env (a :: l2.reverse) [n] ctx,
      entry_loop_fold_single env n _]
    simp only [execute_all_entry_actions, if_neg hnet, hchild, hloop]
    cases hb : (entry_loop_fold env (a :: l2.reverse) ctx).1
    · simp [hb]
    · simp [hb]

theorem entry_step_none (env : SmfEnv) (s : Nat) (ctx : SmfCtx) (h : env.entry s = none) :
    entry_step env s ctx = (false, { ctx with executing := some s }) := by
  simp [entry_step, h]

theorem entry_step_nop (env : SmfEnv) (s : Nat) (ctx : SmfCtx)
    (h : env.entry s = some HookAct.nop) (ht : ctx.terminate = false) :
    entry_step env s ctx =
      (false, { ctx with executing := some s, log := ctx.log ++ [HookEv.entry s] }) := by
  obtain ⟨cu, pr, ex, tv, ns, tm, ie, hd, lg⟩ := ctx
  simp only at ht
  subst ht
  simp [entry_step, h, run_hook_act_nop]

theorem entry_step_term (env : SmfEnv) (s : Nat) (v : Int) (ctx : SmfCtx)
    (h : env.entry s = some (HookAct.term v)) (ht : ctx.terminate = false) :
    entry_step env s ctx =
      (true,
        { ctx with
          executing := ctx.current
          terminate_val := v
          terminate := true
          log := ctx.log ++ [HookEv.entry s] }) := by
  obtain ⟨cu, pr, ex, tv, ns, tm, ie, hd, lg⟩ := ctx
  simp only at ht
  subst ht
  simp [entry_step, h, run_hook_act_term]

theorem entry_loop_fold_nonterm (env : SmfEnv) :
    ∀ (r : List Nat) (ctx : SmfCtx), ctx.terminate = false →
      (∀ s ∈ r, env.entry s = none ∨ env.entry s = some HookAct.nop) →
      ∃ e, entry_loop_fold env r ctx =
        (false, { ctx with log := ctx.log ++ entryEvs env r, executing := e }) := by
  intro r
  induction r with
  | nil =>
    intro ctx ht _
    exact ⟨ctx.executing, by simp [entry_loop_fold, entryEvs]⟩
  | cons s r ih =>
    intro ctx ht hN
    obtain ⟨cu, pr, ex, tv, ns, tm, ie, hd, lg⟩ := ctx
    simp only at ht
    subst ht
    rcases hN s (List.mem_cons_self s r) with h0 | h0
    · obtain ⟨e, he⟩ := ih
        { current := cu, previous := pr, executing := some s, terminate_val := tv,
          new_state := ns, terminate := false, is_exit := ie, handled := hd, log := lg }
        rfl (fun x hx => hN x (List.mem_cons_of_mem s hx))
      refine ⟨e, ?_⟩
      rw [show entry_loop_fold env (s :: r)
          { current := cu, previous := pr, executing := ex, terminate_val := tv,
            new_state := ns, terminate := false, is_exit := ie, handled := hd, log := lg } =
          entry_loop_fold env r
          { current := cu, previous := pr, executing := some s, terminate_val := tv,
            new_state := ns, terminate := false, is_exit := ie, handled := hd, log := lg } by
        simp [entry_loop_fold, entry_step_none env s _ h0]]
      rw [he]
      simp [entryEvs, List.filterMap_cons, h0]
    · obtain ⟨e, he⟩ := ih
        { current := cu, previous := pr, executing := some s, terminate_val := tv,
          new_state := ns, terminate := false, is_exit := ie, handled := hd,
          log := lg ++ [HookEv.entry s] }
        rfl (fun x hx => hN x (List.mem_cons_of_mem s hx))
      refine ⟨e, ?_⟩
      rw [show entry_loop_fold env (s :: r)
          { current := cu, previous := pr, executing := ex, terminate_val := tv,
            new_state := ns, terminate := false, is_exit := ie, handled := hd, log := lg } =
          entry_loop_fold env r
          { current := cu, previous := pr, executing := some s, terminate_val := tv,
            new_state := ns, terminate := false, is_exit := ie, handled := hd,
            log := lg ++ [HookEv.entry s] } by
        simp [entry_loop_fold, entry_step_nop env s
          { current := cu, previous := pr, executing := ex, terminate_val := tv,
            new_state := ns, terminate := false, is_exit := ie, handled := hd, log := lg } h0 rfl]]
      rw [he]
      simp [entryEvs, List.filterMap_cons, h0, List.append_assoc]

theorem entry_fold_nonterm (env : SmfEnv) (r : List Nat) (ctx : SmfCtx)
    (ht : ctx.terminate = false)
    (hN : ∀ s ∈ r, env.entry s = none ∨ env.entry s = some HookAct.nop) :
    entry_fold env r ctx =
      (false, { ctx with log := ctx.log ++ entryEvs env r, executing := ctx.current }) := by
  obtain ⟨e, he⟩ := entry_loop_fold_nonterm env r ctx ht hN
  rw [entry_fold, he]
  simp

theorem entry_loop_fold_term (env : SmfEnv) :
    ∀ (r1 : List Nat) (k : Nat) (r2 : List Nat) (v : Int) (ctx : SmfCtx),
      ctx.terminate = false →
      (∀ s ∈ r1, env.entry s = none ∨ env.entry s = some HookAct.nop) →
      env.entry k = some (HookAct.term v) →
      entry_loop_fold env (r1 ++ k :: r2) ctx =
        (true,
          { ctx with
            executing := ctx.current
            terminate_val := v
            terminate := true
            log := ctx.log ++ entryEvs env r1 ++ [HookEv.entry k] }) := by
  intro r1
  induction r1 with
  | nil =>
    intro k r2 v ctx ht _ hk
    have hstep := entry_step_term env k v ctx hk ht
    rcases hb : entry_step env k ctx with ⟨b, c⟩
    rw [hb] at hstep
    injection hstep with hb1 hb2
    simp only [List.nil_append, entry_loop_fold, hb, hb1]
    rw [hb2]
    simp [entryEvs]
  | cons s r1 ih =>
    intro k r2 v ctx ht hN hk
    obtain ⟨cu, pr, ex, tv, ns, tm, ie, hd, lg⟩ := ctx
    simp only at ht
    subst ht
    rcases hN s (List.mem_cons_self s r1) with h0 | h0
    · have he := ih k r2 v
        { current := cu, previous := pr, executing := some s, terminate_val := tv,
          new_state := ns, terminate := false, is_exit := ie, handled := hd, log := lg }
        rfl (fun x hx => hN x (List.mem_cons_of_mem s hx)) hk
      rw [show entry_loop_fold env ((s :: r1) ++ k :: r2)
          { current := cu, previous := pr, executing := ex, terminate_val := tv,
            new_state := ns, terminate := false, is_exit := ie, handled := hd, log := lg } =
          entry_loop_fold env (r1 ++ k :: r2)
          { current := cu, previous := pr, executing := some s, terminate_val := tv,
            new_state := ns, terminate := false, is_exit := ie, handled := hd, log := lg } by
        simp [entry_loop_fold, entry_step_none env s _ h0]]
      rw [he]
      simp [entryEvs, List.filterMap_cons, h0]
    · have he := ih k r2 v
        { current := cu, previous := pr, executing := some s, terminate_val := tv,
          new_state := ns, terminate := false, is_exit := ie, handled := hd,
          log := lg ++ [HookEv.entry s] }
        rfl (fun x hx => hN x (List.mem_cons_of_mem s hx)) hk
      rw [show entry_loop_fold env ((s :: r1) ++ k :: r2)
          { current := cu, previous := pr, executing := ex, terminate_val := tv,
            new_state := ns, terminate := false, is_exit := ie, handled := hd, log := lg } =
          entry_loop_fold env (r1 ++ k :: r2)
          { current := cu, previous := pr, executing := some s, terminate_val := tv,
            new_state := ns, terminate := false, is_exit := ie, handled := hd,
            log := lg ++ [HookEv.entry s] } by
        simp [entry_loop_fold, entry_step_nop env s
          { current := cu, previous := pr, executing := ex, terminate_val := tv,
            new_state := ns, terminate := false, is_exit := ie, handled := hd, log := lg } h0 rfl]]
      rw [he]
      simp [entryEvs, List.filterMap_cons, h0, List.append_assoc]

theorem entry_fold_term (env : SmfEnv) (r1 : List Nat) (k : Nat) (r2 : List Nat) (v : Int)
    (ctx : SmfCtx) (ht : ctx.terminate = false)
    (hN : ∀ s ∈ r1, env.entry s = none ∨ env.entry s = some HookAct.nop)
    (hk : env.entry k = some (HookAct.term v)) :
    entry_fold env (r1 ++ k :: r2) ctx =
      (true,
        { ctx with
          executing := ctx.current
          terminate_val := v
          terminate := true
          log := ctx.log ++ entryEvs env r1 ++ [HookEv.entry k] }) := by
  rw [entry_fold, entry_loop_fold_term env r1 k r2 v ctx ht hN hk]
  simp

/-! ### `smf_set_state`, decomposed -/

theorem self_hook_step_skip (ns : Nat) (hk : Option HookAct) (ev : HookEv) (ctx : SmfCtx)
    (h : ctx.executing ≠ some ns) : self_hook_step ns hk ev ctx = (false, ctx) := by
  simp [self_hook_step, h]

theorem smf_set_state_no_self (env : SmfEnv) (ctx : SmfCtx) (ns : Nat) (ex : List Nat)
    (hie : ctx.is_exit = false) (ht : ctx.terminate = false)
    (hne : ctx.executing ≠ some ns)
    (hchx : UpChain env ctx.current ex (get_topmost_of env ctx.executing ns))
    (hfx : ex.length < env.fuel)
    (hxN : ∀ s ∈ ex, env.exit s = none ∨ env.exit s = some HookAct.nop) :
    smf_set_state env ctx (some ns) =
      (0, (execute_all_entry_actions env
        { ctx with
          new_state := true
          is_exit := false
          previous := ctx.current
          current := some (resolve_initial env env.fuel ns)
          executing := some (resolve_initial env env.fuel ns)
          log := ctx.log ++ exitEvs env ex }
        (resolve_initial env env.fuel ns) (get_topmost_of env ctx.executing ns)).2) := by
  obtain ⟨cu, pr, exe, tv, nsf, tm, ie, hd, lg⟩ := ctx
  simp only at hie ht hne hchx ⊢
  subst hie
  subst ht
  have hexit := execute_all_exit_actions_chain env
    { current := cu, previous := pr, executing := exe, terminate_val := tv,
      new_state := true, terminate := false, is_exit := true, handled := hd, log := lg }
    ex (get_topmost_of env exe ns) hchx hfx
  obtain ⟨e, he⟩ := exit_fold_nonterm env ex
    { current := cu, previous := pr, executing := exe, terminate_val := tv,
      new_state := true, terminate := false, is_exit := true, handled := hd, log := lg }
    rfl hxN
  rw [he] at hexit
  simp only at hexit
  simp only [smf_set_state, Bool.false_eq_true, if_false]
  rw [hexit]
  simp only
  rw [self_hook_step_skip ns (env.exit ns) (HookEv.exit ns) _ hne]
  simp only [Bool.false_eq_true, if_false]
  rw [self_hook_step_skip ns (env.entry ns) (HookEv.entry ns) _ hne]
  simp

theorem resolve_initial_leaf (env : SmfEnv) (s : Nat) (h : env.initial s = none) :
    ∀ fuel : Nat, resolve_initial env fuel s = s := by
  intro fuel
  cases fuel with
  | zero => rfl
  | succ f => simp [resolve_initial, h]

theorem smf_set_state_exit_term (env : SmfEnv) (ctx : SmfCtx) (ns : Nat)
    (ex1 : List Nat) (k : Nat) (ex2 : List Nat) (v : Int)
    (hie : ctx.is_exit = false) (ht : ctx.terminate = false)
    (hch : UpChain env ctx.current (ex1 ++ k :: ex2) (get_topmost_of env ctx.executing ns))
    (hfx : (ex1 ++ k :: ex2).length < env.fuel)
    (hxN : ∀ s ∈ ex1, env.exit s = none ∨ env.exit s = some HookAct.nop)
    (hk : env.exit k = some (HookAct.term v)) :
    smf_set_state env ctx (some ns) =
      (0,
        { ctx with
          terminate_val := v
          new_state := true
          terminate := true
          is_exit := true
          log := ctx.log ++ exitEvs env ex1 ++ [HookEv.exit k] }) := by
  obtain ⟨cu, pr, exe, tv, nsf, tm, ie, hd, lg⟩ := ctx
  simp only at hie ht hch ⊢
  subst hie
  subst ht
  have hexit := execute_all_exit_actions_chain env
    { current := cu, previous := pr, executing := exe, terminate_val := tv,
      new_state := true, terminate := false, is_exit := true, handled := hd, log := lg }
    (ex1 ++ k :: ex2) (get_topmost_of env exe ns) hch hfx
  rw [exit_fold_term env ex1 k ex2 v
    { current := cu, previous := pr, executing := exe, terminate_val := tv,
      new_state := true, terminate := false, is_exit := true, handled := hd, log := lg }
    rfl hxN hk] at hexit
  simp only at hexit
  simp only [smf_set_state, Bool.false_eq_true, if_false]
  rw [hexit]
  simp

/-- Claim C1: for a transition requested at a leaf `L1` (so
`ctx.current = ctx.executing = some L1`) toward a distinct leaf `L2`, with
no hook setting the termination flag, the exit hooks invoked are exactly
those of the states on the chain from `L1` up to, but excluding, the
topmost boundary state, in child-to-parent order, followed by the entry
hooks of the states on the chain from the boundary (exclusive) down to
`L2`, in parent-to-child order; the boundary is the LCA of `L1` and `L2`
whenever neither is an ancestor of the other, and states at or above the
boundary (outside both chains) run neither hook. -/
theorem smf_claim_C1 (env : SmfEnv) (ctx : SmfCtx) (L1 L2 : Nat) (ex en : List Nat)
    (hcur : ctx.current = some L1) (hexe : ctx.executing = some L1)
    (hie : ctx.is_exit = false) (ht : ctx.terminate = false)
    (hne : L1 ≠ L2) (hleaf : env.initial L2 = none)
    (hchx : UpChain env (some L1) ex (get_topmost_of env (some L1) L2))
    (hche : UpChain env (some L2) en (get_topmost_of env (some L1) L2))
    (hnd : en.Nodup)
    (hfx : ex.length < env.fuel) (hfe : en.length + 1 < env.fuel)
    (hxN : ∀ s ∈ ex, env.exit s = none ∨ env.exit s = some HookAct.nop)
    (heN : ∀ s ∈ en, env.entry s = none ∨ env.entry s = some HookAct.nop) :
    smf_set_state env ctx (some L2) =
      (0,
        { ctx with
          new_state := true
          is_exit := false
          previous := some L1
          current := some L2
          executing := some L2
          log := ctx.log ++ exitEvs env ex ++ entryEvs env en.reverse }) ∧
    (is_descendant_of env env.fuel (some L1) (some L2) = false →
     is_descendant_of env env.fuel (some L2) (some L1) = false →
     get_topmost_of env (some L1) L2 = get_lca_of env L1 L2) := by
  constructor
  · obtain ⟨cu, pr, exe, tv, nsf, tm, ie, hd, lg⟩ := ctx
    simp only at hcur hexe hie ht ⊢
    subst hcur
    subst hexe
    subst hie
    subst ht
    have hnex : (some L1 : Option Nat) ≠ some L2 := by simpa using hne
    rw [smf_set_state_no_self env
      { current := some L1, previous := pr, executing := some L1, terminate_val := tv,
        new_state := nsf, terminate := false, is_exit := false, handled := hd, log := lg }
      L2 ex rfl rfl hnex hchx hfx hxN]
    rw [resolve_initial_leaf env L2 hleaf env.fuel]
    by_cases hen : en = []
    · subst hen
      have htop : (some L2 : Option Nat) = get_topmost_of env (some L1) L2 :=
        upchain_nil_eq env hche
      simp only [execute_all_entry_actions, if_pos htop]
      simp [entryEvs]
    · rw [execute_all_entry_actions_chain env L2 (get_topmost_of env (some L1) L2) en _
        hche hnd hen hfe]
      rw [entry_fold_nonterm env en.reverse _ rfl
        (fun s hs => heN s (List.mem_reverse.mp hs))]
  · intro h1 h2
    simp [get_topmost_of, h1, h2]

/-- Claim C5: a transition to a composite state `P` whose initial chain is
`P → X → Y` computes the exit/entry boundary against `P` as requested (the
statement fixes the boundary as `get_topmost_of` of `P`, not of `Y`), fires
the entry hooks ending with `Entry P, Entry X, Entry Y` in
parent-before-child order, and leaves the current leaf pointer at the
resolved leaf `Y`. -/
theorem smf_claim_C5 (env : SmfEnv) (ctx : SmfCtx) (L1 P X Y : Nat) (ex en1 : List Nat)
    (hcur : ctx.current = some L1) (hexe : ctx.executing = some L1)
    (hie : ctx.is_exit = false) (ht : ctx.terminate = false)
    (hne : L1 ≠ P)
    (hiP : env.initial P = some X) (hiX : env.initial X = some Y) (hiY : env.initial Y = none)
    (hchx : UpChain env (some L1) ex (get_topmost_of env (some L1) P))
    (hche : UpChain env (some Y) (Y :: X :: P :: en1) (get_topmost_of env (some L1) P))
    (hnd : (Y :: X :: P :: en1).Nodup)
    (hfx : ex.length < env.fuel) (hfe : (Y :: X :: P :: en1).length + 1 < env.fuel)
    (hxN : ∀ s ∈ ex, env.exit s = none ∨ env.exit s = some HookAct.nop)
    (heN : ∀ s ∈ en1, env.entry s = none ∨ env.entry s = some HookAct.nop)
    (heP : env.entry P = some HookAct.nop) (heX : env.entry X = some HookAct.nop)
    (heY : env.entry Y = some HookAct.nop) :
    smf_set_state env ctx (some P) =
      (0,
        { ctx with
          new_state := true
          is_exit := false
          previous := some L1
          current := some Y
          executing := some Y
          log := ctx.log ++ exitEvs env ex ++ entryEvs env en1.reverse ++
            [HookEv.entry P, HookEv.entry X, HookEv.entry Y] }) := by
  have hres : resolve_initial env env.fuel P = Y := by
    obtain ⟨f, hf⟩ : ∃ f, env.fuel = f + 2 := ⟨env.fuel - 2, by
      simp only [List.length_cons] at hfe
      omega⟩
    rw [hf]
    simp [resolve_initial, hiP, hiX, resolve_initial_leaf env Y hiY]
  obtain ⟨cu, pr, exe, tv, nsf, tm, ie, hd, lg⟩ := ctx
  simp only at hcur hexe hie ht ⊢
  subst hcur
  subst hexe
  subst hie
  subst ht
  have hnex : (some L1 : Option Nat) ≠ some P := by simpa using hne
  rw [smf_set_state_no_self env
    { current := some L1, previous := pr, executing := some L1, terminate_val := tv,
      new_state := nsf, terminate := false, is_exit := false, handled := hd, log := lg }
    P ex rfl rfl hnex hchx hfx hxN]
  rw [hres]
  rw [execute_all_entry_actions_chain env Y (get_topmost_of env (some L1) P)
    (Y :: X :: P :: en1) _ hche hnd (by simp) hfe]
  rw [entry_fold_nonterm env (Y :: X :: P :: en1).reverse _ rfl (by
    intro s hs
    rw [List.mem_reverse] at hs
    simp only [List.mem_cons] at hs
    rcases hs with rfl | rfl | rfl | hs
    · exact Or.inr heY
    · exact Or.inr heX
    · exact Or.inr heP
    · exact heN s hs)]
  have hevs : entryEvs env (Y :: X :: P :: en1).reverse =
      entryEvs env en1.reverse ++ [HookEv.entry P, HookEv.entry X, HookEv.entry Y] := by
    simp only [List.reverse_cons, List.append_assoc]
    rw [show (en1.reverse ++ ([P] ++ ([X] ++ [Y]))) = en1.reverse ++ [P, X, Y] by simp]
    unfold entryEvs
    rw [List.filterMap_append]
    simp [heP, heX, heY]
  rw [hevs]
  simp [List.append_assoc]

/-- Claim C9: if a hook sets the termination flag during the entry phase of
a transition (the exit phase having completed without termination), the
operation returns with the current leaf pointer already updated to the
resolved destination leaf and the previous pointer set to the old leaf,
even though the entry hooks below the terminating state never ran — in
contrast to exit-phase termination (claim C3), which leaves the current
leaf at the pre-transition value. -/
theorem smf_claim_C9 (env : SmfEnv) (ctx : SmfCtx) (L1 T L2 : Nat) (v : Int)
    (ex en r1 : List Nat) (k : Nat) (r2 : List Nat)
    (hcur : ctx.current = some L1) (hexe : ctx.executing = some L1)
    (hie : ctx.is_exit = false) (ht : ctx.terminate = false)
    (hne : L1 ≠ T)
    (hres : resolve_initial env env.fuel T = L2)
    (hchx : UpChain env (some L1) ex (get_topmost_of env (some L1) T))
    (hche : UpChain env (some L2) en (get_topmost_of env (some L1) T))
    (hnd : en.Nodup) (hrev : en.reverse = r1 ++ k :: r2)
    (hfx : ex.length < env.fuel) (hfe : en.length + 1 < env.fuel)
    (hxN : ∀ s ∈ ex, env.exit s = none ∨ env.exit s = some HookAct.nop)
    (heN : ∀ s ∈ r1, env.entry s = none ∨ env.entry s = some HookAct.nop)
    (hk : env.entry k = some (HookAct.term v)) :
    smf_set_state env ctx (some T) =
      (0,
        { ctx with
          new_state := true
          is_exit := false
          previous := some L1
          current := some L2
          executing := some L2
          terminate := true
          terminate_val := v
          log := ctx.log ++ exitEvs env ex ++ entryEvs env r1 ++ [HookEv.entry k] }) := by
  have hen : en ≠ [] := by
    intro h
    rw [h] at hrev
    exact absurd hrev.symm (List.append_ne_nil_of_right_ne_nil r1 (by simp))
  obtain ⟨cu, pr, exe, tv, nsf, tm, ie, hd, lg⟩ := ctx
  simp only at hcur hexe hie ht ⊢
  subst hcur
  subst hexe
  subst hie
  subst ht
  have hnex : (some L1 : Option Nat) ≠ some T := by simpa using hne
  rw [smf_set_state_no_self env
    { current := some L1, previous := pr, executing := some L1, terminate_val := tv,
      new_state := nsf, terminate := false, is_exit := false, handled := hd, log := lg }
    T ex rfl rfl hnex hchx hfx hxN]
  rw [hres]
  rw [execute_all_entry_actions_chain env L2 (get_topmost_of env (some L1) T) en _
    hche hnd hen hfe]
  rw [hrev]
  rw [entry_fold_term env r1 k r2 v _ rfl heN hk]

theorem is_descendant_of_self (env : SmfEnv) (s : Nat) :
    ∀ fuel : Nat, 0 < fuel → is_descendant_of env fuel (some s) (some s) = true := by
  intro fuel h
  match fuel, h with
  | f + 1, _ => simp [is_descendant_of]

theorem exit_loop_at_topmost (env : SmfEnv) (t : Option Nat) (ctx : SmfCtx) :
    ∀ fuel : Nat, 0 < fuel → exit_loop env fuel t t ctx = (false, ctx) := by
  intro fuel h
  match fuel, h with
  | f + 1, _ =>
    cases t with
    | none => rfl
    | some s => simp [exit_loop]

/-- Claim C7: when the state that requested the transition (`ctx.executing`)
equals the requested target `S`, that state's own exit hook and then its
entry hook are invoked as an explicit exit/entry pair; in particular a leaf
state transitioning to itself fires exactly `[Exit S, Entry S]` and the
current leaf afterwards equals the leaf before.  (When the requester
differs from the target this branch of `smf_set_state` is skipped, as the
exit/entry chain characterisation of claim C1 shows.) -/
theorem smf_claim_C7 (env : SmfEnv) (ctx : SmfCtx) (S : Nat)
    (hcur : ctx.current = some S) (hexe : ctx.executing = some S)
    (hie : ctx.is_exit = false) (ht : ctx.terminate = false)
    (hleaf : env.initial S = none)
    (hx : env.exit S = some HookAct.nop) (hent : env.entry S = some HookAct.nop)
    (hf : 0 < env.fuel) :
    smf_set_state env ctx (some S) =
      (0,
        { ctx with
          new_state := true
          is_exit := false
          previous := some S
          current := some S
          executing := some S
          log := ctx.log ++ [HookEv.exit S, HookEv.entry S] }) := by
  obtain ⟨cu, pr, exe, tv, nsf, tm, ie, hd, lg⟩ := ctx
  simp only at hcur hexe hie ht ⊢
  subst hcur
  subst hexe
  subst hie
  subst ht
  have htop : get_topmost_of env (some S) S = some S := by
    simp [get_topmost_of, is_descendant_of_self env S env.fuel hf]
  simp only [smf_set_state, Bool.false_eq_true, if_false, htop]
  simp only [execute_all_exit_actions]
  rw [exit_loop_at_topmost env (some S) _ env.fuel hf]
  simp [self_hook_step, hx, hent, run_hook_act_nop, resolve_initial_leaf env S hleaf,
    execute_all_entry_actions]

/-- Claim C8 counterexample: in the two-tree configuration `envC8` (states
`0` and `1` are roots of disjoint trees), the LCA computation finds no
common ancestor, yet `smf_set_state` does not return any error to the
caller: it returns `0` (its only failure signal is `-1`) and silently
completes the transition, exiting up to the old root and entering the new
tree. -/
theorem smf_claim_C8_counterexample :
    get_lca_of envC8 0 1 = none ∧
    get_topmost_of envC8 (some 0) 1 = none ∧
    smf_set_state envC8 ctxC8 (some 1) =
      (0,
        { current := some 1, previous := some 0, executing := some 1, terminate_val := 0,
          new_state := true, terminate := false, is_exit := false, handled := false,
          log := [HookEv.exit 0, HookEv.entry 1] }) := by
  refine ⟨by decide, by decide, by decide⟩

/-- Claim C8 (amended): when the LCA computation for a transition between
states of disjoint trees finds no common ancestor, `smf_set_state` reports
nothing to the caller: the missing boundary is treated as lying above the
roots, so the engine exits every state from the current leaf up to its
root, enters from the destination's root down to the resolved leaf, and
returns `0` (success); the condition is silently absorbed rather than
surfaced as an error. -/
theorem smf_claim_C8_amended (env : SmfEnv) (ctx : SmfCtx) (L1 T L2 : Nat) (ex en : List Nat)
    (hcur : ctx.current = some L1) (hexe : ctx.executing = some L1)
    (hie : ctx.is_exit = false) (ht : ctx.terminate = false)
    (hne : L1 ≠ T)
    (hnone : get_topmost_of env (some L1) T = none)
    (hres : resolve_initial env env.fuel T = L2)
    (hchx : UpChain env (some L1) ex none)
    (hche : UpChain env (some L2) en none)
    (hnd : en.Nodup)
    (hfx : ex.length < env.fuel) (hfe : en.length + 1 < env.fuel)
    (hxN : ∀ s ∈ ex, env.exit s = none ∨ env.exit s = some HookAct.nop)
    (heN : ∀ s ∈ en, env.entry s = none ∨ env.entry s = some HookAct.nop) :
    smf_set_state env ctx (some T) =
      (0,
        { ctx with
          new_state := true
          is_exit := false
          previous := some L1
          current := some L2
          executing := some L2
          log := ctx.log ++ exitEvs env ex ++ entryEvs env en.reverse }) := by
  have hen : en ≠ [] := by
    intro h
    subst h
    exact absurd (upchain_nil_eq env hche) (by simp)
  obtain ⟨cu, pr, exe, tv, nsf, tm, ie, hd, lg⟩ := ctx
  simp only at hcur hexe hie ht ⊢
  subst hcur
  subst hexe
  subst hie
  subst ht
  have hnex : (some L1 : Option Nat) ≠ some T := by simpa using hne
  rw [smf_set_state_no_self env
    { current := some L1, previous := pr, executing := some L1, terminate_val := tv,
      new_state := nsf, terminate := false, is_exit := false, handled := hd, log := lg }
    T ex rfl rfl hnex (by rw [hnone]; exact hchx) hfx hxN]
  rw [hres]
  rw [show get_topmost_of env (some L1) T = none from hnone]
  rw [execute_all_entry_actions_chain env L2 none en _ hche hnd hen hfe]
  rw [entry_fold_nonterm env en.reverse _ rfl (fun s hs => heN s (List.mem_reverse.mp hs))]

/-- Claim C3: if during the exit phase of a transition (requested here by
the current leaf's run hook) the exit hook of the state `k` sets the
termination flag, then no further exit hook runs, no entry hook runs, the
current leaf pointer still equals the pre-transition leaf when the
operation returns, and the dispatch call returns the stored termination
value. -/
theorem smf_claim_C3 (env : SmfEnv) (ctx : SmfCtx) (L1 T : Nat) (r : SmfResult) (v : Int)
    (ex1 : List Nat) (k : Nat) (ex2 : List Nat)
    (ht : ctx.terminate = false) (hcur : ctx.current = some L1)
    (hrun : env.run L1 = some (RunAct.trans T r))
    (hch : UpChain env (some L1) (ex1 ++ k :: ex2) (get_topmost_of env (some L1) T))
    (hfx : (ex1 ++ k :: ex2).length < env.fuel)
    (hxN : ∀ s ∈ ex1, env.exit s = none ∨ env.exit s = some HookAct.nop)
    (hk : env.exit k = some (HookAct.term v)) :
    (smf_run_state env ctx).1 = v ∧
    (smf_run_state env ctx).2.current = some L1 ∧
    (smf_run_state env ctx).2.previous = ctx.previous ∧
    (smf_run_state env ctx).2.terminate = true ∧
    (smf_run_state env ctx).2.terminate_val = v ∧
    (smf_run_state env ctx).2.log =
      ctx.log ++ [HookEv.run L1] ++ exitEvs env ex1 ++ [HookEv.exit k] := by
  obtain ⟨cu, pr, exe, tv, nsf, tm, ie, hd, lg⟩ := ctx
  simp only at ht hcur ⊢
  subst ht
  subst hcur
  have hset := smf_set_state_exit_term env
    { current := some L1, previous := pr, executing := some L1, terminate_val := tv,
      new_state := false, terminate := false, is_exit := false, handled := false,
      log := lg ++ [HookEv.run L1] } T ex1 k ex2 v rfl rfl hch hfx hxN hk
  simp only [smf_run_state, Bool.false_eq_true, if_false, clear_internal_state, hrun,
    run_run_act, hset]
  cases r <;>
    simp [execute_ancestor_run_actions, List.append_assoc]

/-! ### Preservation facts: fields the hook walks never touch -/

/-- The fields of the context that no hook invocation and no exit/entry
walk of the transition engine modifies. -/
def StableEq (a b : SmfCtx) : Prop :=
  a.current = b.current ∧ a.previous = b.previous ∧ a.new_state = b.new_state ∧
  a.is_exit = b.is_exit ∧ a.handled = b.handled

theorem stableEq_refl (a : SmfCtx) : StableEq a a :=
  ⟨Eq.refl _, Eq.refl _, Eq.refl _, Eq.refl _, Eq.refl _⟩

theorem stableEq_trans {a b c : SmfCtx} (h1 : StableEq a b) (h2 : StableEq b c) :
    StableEq a c := by
  obtain ⟨a1, a2, a3, a4, a5⟩ := h1
  obtain ⟨b1, b2, b3, b4, b5⟩ := h2
  exact ⟨a1.trans b1, a2.trans b2, a3.trans b3, a4.trans b4, a5.trans b5⟩

theorem run_hook_act_stable (ev : HookEv) (act : HookAct) (ctx : SmfCtx) :
    StableEq (run_hook_act ev act ctx) ctx := by
  cases act <;> simp [run_hook_act, smf_set_terminate, StableEq]

theorem run_hook_act_log (ev : HookEv) (act : HookAct) (ctx : SmfCtx) :
    (run_hook_act ev act ctx).log = ctx.log ++ [ev] := by
  cases act <;> simp [run_hook_act, smf_set_terminate]

theorem exit_loop_stable (env : SmfEnv) :
    ∀ (fuel : Nat) (c t : Option Nat) (ctx : SmfCtx),
      StableEq (exit_loop env fuel c t ctx).2 ctx := by
  intro fuel
  induction fuel with
  | zero => intro c t ctx; cases c <;> exact stableEq_refl _
  | succ f ih =>
    intro c t ctx
    cases c with
    | none => exact stableEq_refl _
    | some s =>
      simp only [exit_loop]
      by_cases hst : some s = t
      · simp only [if_pos hst]; exact stableEq_refl _
      · simp only [if_neg hst]
        cases henv : env.exit s with
        | none => exact ih _ _ _
        | some act =>
          simp only
          split
          · exact stableEq_trans (run_hook_act_stable _ _ _) (stableEq_refl _)
          · exact stableEq_trans (ih _ _ _) (run_hook_act_stable _ _ _)

theorem execute_all_exit_actions_stable (env : SmfEnv) (ctx : SmfCtx) (t : Option Nat) :
    StableEq (execute_all_exit_actions env ctx t).2 ctx := by
  unfold execute_all_exit_actions
  exact exit_loop_stable env env.fuel ctx.current t ctx

theorem execute_all_exit_actions_exec (env : SmfEnv) (ctx : SmfCtx) (t : Option Nat) :
    (execute_all_exit_actions env ctx t).2.executing = ctx.executing := by
  unfold execute_all_exit_actions
  simp

theorem entry_step_stable (env : SmfEnv) (s : Nat) (ctx : SmfCtx) :
    StableEq (entry_step env s ctx).2 ctx := by
  unfold entry_step
  cases henv : env.entry s with
  | none => exact stableEq_refl _
  | some act =>
    simp only
    split
    · exact run_hook_act_stable _ _ _
    · exact run_hook_act_stable _ _ _

theorem entry_loop_stable (env : SmfEnv) :
    ∀ (fuel : Nat) (c : Option Nat) (n : Nat) (ctx : SmfCtx),
      StableEq (entry_loop env fuel c n ctx).2 ctx := by
  intro fuel
  induction fuel with
  | zero => intro c n ctx; cases c <;> exact stableEq_refl _
  | succ f ih =>
    intro c n ctx
    cases c with
    | none => exact stableEq_refl _
    | some s =>
      simp only [entry_loop]
      by_cases hsn : s = n
      · simp only [if_pos hsn]; exact stableEq_refl _
      · simp only [if_neg hsn]
        split
        · exact entry_step_stable env s ctx
        · exact stableEq_trans (ih _ _ _) (entry_step_stable env s ctx)

theorem execute_all_entry_actions_stable (env : SmfEnv) (ctx : SmfCtx) (n : Nat)
    (t : Option Nat) : StableEq (execute_all_entry_actions env ctx n t).2 ctx := by
  unfold execute_all_entry_actions
  by_cases hnt : some n = t
  · simp only [if_pos hnt]; exact stableEq_refl _
  · simp only [if_neg hnt]
    split
    · exact entry_loop_stable env env.fuel _ n ctx
    · split
      · exact stableEq_trans (entry_step_stable env n _)
          (entry_loop_stable env env.fuel _ n ctx)
      · exact stableEq_trans
          (stableEq_trans (stableEq_refl _) (entry_step_stable env n _))
          (entry_loop_stable env env.fuel _ n ctx)

theorem self_hook_step_stable (ns : Nat) (hk : Option HookAct) (ev : HookEv) (ctx : SmfCtx) :
    StableEq (self_hook_step ns hk ev ctx).2 ctx := by
  unfold self_hook_step
  split
  · cases hk with
    | none => exact stableEq_refl _
    | some act => exact run_hook_act_stable _ _ _
  · exact stableEq_refl _

/-- After a transition request that passes the `is_exit` guard, the
`new_state` flag is set, whatever the hooks did. -/
theorem smf_set_state_new_state (env : SmfEnv) (ctx : SmfCtx) (t : Nat)
    (hie : ctx.is_exit = false) :
    (smf_set_state env ctx (some t)).2.new_state = true := by
  simp only [smf_set_state, hie, Bool.false_eq_true, if_false]
  rcases hex : execute_all_exit_actions env { ctx with is_exit := true, new_state := true }
    (get_topmost_of env ctx.executing t) with ⟨b1, c1⟩
  have hs1 : c1.new_state = true := by
    have h := execute_all_exit_actions_stable env
      { ctx with is_exit := true, new_state := true } (get_topmost_of env ctx.executing t)
    rw [hex] at h
    exact h.2.2.1
  cases b1
  · simp only [Bool.false_eq_true, if_false]
    rcases hsx : self_hook_step t (env.exit t) (HookEv.exit t) c1 with ⟨b2, c2⟩
    have hs2 : c2.new_state = true := by
      have h := self_hook_step_stable t (env.exit t) (HookEv.exit t) c1
      rw [hsx] at h
      exact h.2.2.1.trans hs1
    cases b2
    · simp only [Bool.false_eq_true, if_false]
      rcases hse : self_hook_step t (env.entry t) (HookEv.entry t) { c2 with is_exit := false }
        with ⟨b3, c3⟩
      have hs3 : c3.new_state = true := by
        have h := self_hook_step_stable t (env.entry t) (HookEv.entry t)
          { c2 with is_exit := false }
        rw [hse] at h
        exact h.2.2.1.trans hs2
      cases b3
      · simp only [Bool.false_eq_true, if_false]
        have h := execute_all_entry_actions_stable env
          { c3 with
            previous := c3.current
            current := some (resolve_initial env env.fuel t)
            executing := some (resolve_initial env env.fuel t) }
          (resolve_initial env env.fuel t) (get_topmost_of env ctx.executing t)
        exact h.2.2.1.trans hs3
      · simpa using hs3
    · simpa using hs2
  · simpa using hs1

/-! ### Log shape: exit/entry walks never record `run` events -/

/-- `true` for entry and exit events, `false` for run events. -/
def is_phase_ev : HookEv → Bool
  | HookEv.entry _ => true
  | HookEv.exit _ => true
  | HookEv.run _ => false

theorem exit_loop_log (env : SmfEnv) :
    ∀ (fuel : Nat) (c t : Option Nat) (ctx : SmfCtx),
      ∃ ext, (exit_loop env fuel c t ctx).2.log = ctx.log ++ ext ∧
        ∀ e ∈ ext, is_phase_ev e = true := by
  intro fuel
  induction fuel with
  | zero => intro c t ctx; exact ⟨[], by cases c <;> simp [exit_loop], by simp⟩
  | succ f ih =>
    intro c t ctx
    cases c with
    | none => exact ⟨[], by simp [exit_loop], by simp⟩
    | some s =>
      simp only [exit_loop]
      by_cases hst : some s = t
      · exact ⟨[], by simp [if_pos hst], by simp⟩
      · simp only [if_neg hst]
        cases henv : env.exit s with
        | none => exact ih _ _ _
        | some act =>
          simp only
          split
          · exact ⟨[HookEv.exit s], by simp [run_hook_act_log], by simp [is_phase_ev]⟩
          · obtain ⟨ext, hl, hp⟩ := ih (env.parent s) t
              (run_hook_act (HookEv.exit s) act { ctx with executing := some s })
            refine ⟨[HookEv.exit s] ++ ext, ?_, ?_⟩
            · rw [hl, run_hook_act_log]
              simp [List.append_assoc]
            · intro e he
              rcases List.mem_append.mp he with he | he
              · simp at he; subst he; rfl
              · exact hp e he

theorem execute_all_exit_actions_log (env : SmfEnv) (ctx : SmfCtx) (t : Option Nat) :
    ∃ ext, (execute_all_exit_actions env ctx t).2.log = ctx.log ++ ext ∧
      ∀ e ∈ ext, is_phase_ev e = true := by
  unfold execute_all_exit_actions
  obtain ⟨ext, hl, hp⟩ := exit_loop_log env env.fuel ctx.current t ctx
  exact ⟨ext, by simpa using hl, hp⟩

theorem entry_step_log (env : SmfEnv) (s : Nat) (ctx : SmfCtx) :
    ∃ ext, (entry_step env s ctx).2.log = ctx.log ++ ext ∧
      ∀ e ∈ ext, is_phase_ev e = true := by
  unfold entry_step
  cases henv : env.entry s with
  | none => exact ⟨[], by simp, by simp⟩
  | some act =>
    simp only
    split
    · exact ⟨[HookEv.entry s], by simp [run_hook_act_log], by simp [is_phase_ev]⟩
    · exact ⟨[HookEv.entry s], by simp [run_hook_act_log], by simp [is_phase_ev]⟩

theorem entry_loop_log (env : SmfEnv) :
    ∀ (fuel : Nat) (c : Option Nat) (n : Nat) (ctx : SmfCtx),
      ∃ ext, (entry_loop env fuel c n ctx).2.log = ctx.log ++ ext ∧
        ∀ e ∈ ext, is_phase_ev e = true := by
  intro fuel
  induction fuel with
  | zero => intro c n ctx; exact ⟨[], by cases c <;> simp [entry_loop], by simp⟩
  | succ f ih =>
    intro c n ctx
    cases c with
    | none => exact ⟨[], by simp [entry_loop], by simp⟩
    | some s =>
      simp only [entry_loop]
      by_cases hsn : s = n
      · exact ⟨[], by simp [if_pos hsn], by simp⟩
      · simp only [if_neg hsn]
        obtain ⟨e1, hl1, hp1⟩ := entry_step_log env s ctx
        rcases hst : entry_step env s ctx with ⟨b, c2⟩
        rw [hst] at hl1
        simp only at hl1
        cases b
        · simp only [Bool.false_eq_true, if_false]
          obtain ⟨e2, hl2, hp2⟩ := ih (get_child_of env env.fuel (some n) (some s)) n c2
          refine ⟨e1 ++ e2, ?_, ?_⟩
          · rw [hl2, hl1, List.append_assoc]
          · intro e he
            rcases List.mem_append.mp he with he | he
            · exact hp1 e he
            · exact hp2 e he
        · exact ⟨e1, by simpa using hl1, hp1⟩

theorem execute_all_entry_actions_log (env : SmfEnv) (ctx : SmfCtx) (n : Nat)
    (t : Option Nat) :
    ∃ ext, (execute_all_entry_actions env ctx n t).2.log = ctx.log ++ ext ∧
      ∀ e ∈ ext, is_phase_ev e = true := by
  unfold execute_all_entry_actions
  by_cases hnt : some n = t
  · exact ⟨[], by simp [if_pos hnt], by simp⟩
  · simp only [if_neg hnt]
    obtain ⟨e1, hl1, hp1⟩ := entry_loop_log env env.fuel
      (get_child_of env env.fuel (some n) t) n ctx
    rcases hlr : entry_loop env env.fuel (get_child_of env env.fuel (some n) t) n ctx
      with ⟨b1, c1⟩
    rw [hlr] at hl1
    simp only at hl1
    cases b1
    · simp only [Bool.false_eq_true, if_false]
      obtain ⟨e2, hl2, hp2⟩ := entry_step_log env n c1
      rcases hst : entry_step env n c1 with ⟨b2, c2⟩
      rw [hst] at hl2
      simp only at hl2
      cases b2
      · simp only [Bool.false_eq_true, if_false]
        refine ⟨e1 ++ e2, ?_, ?_⟩
        · rw [hl2, hl1]
          simp [List.append_assoc]
        · intro e he
          rcases List.mem_append.mp he with he | he
          · exact hp1 e he
          · exact hp2 e he
      · refine ⟨e1 ++ e2, ?_, ?_⟩
        · simp [hl2, hl1, List.append_assoc]
        · intro e he
          rcases List.mem_append.mp he with he | he
          · exact hp1 e he
          · exact hp2 e he
    · exact ⟨e1, by simpa using hl1, hp1⟩

theorem self_hook_step_log (ns : Nat) (hk : Option HookAct) (ev : HookEv) (ctx : SmfCtx)
    (hev : is_phase_ev ev = true) :
    ∃ ext, (self_hook_step ns hk ev ctx).2.log = ctx.log ++ ext ∧
      ∀ e ∈ ext, is_phase_ev e = true := by
  unfold self_hook_step
  split
  · cases hk with
    | none => exact ⟨[], by simp, by simp⟩
    | some act =>
      refine ⟨[ev], by simp [run_hook_act_log], ?_⟩
      intro e he
      simp at he
      subst he
      exact hev
  · exact ⟨[], by simp, by simp⟩

theorem smf_set_state_log (env : SmfEnv) (ctx : SmfCtx) (t : Option Nat) :
    ∃ ext, (smf_set_state env ctx t).2.log = ctx.log ++ ext ∧
      ∀ e ∈ ext, is_phase_ev e = true := by
  rcases t with _ | ns
  · exact ⟨[], by simp [smf_set_state], by simp⟩
  by_cases hie : ctx.is_exit = true
  · exact ⟨[], by simp [smf_set_state, hie], by simp⟩
  simp only [smf_set_state, if_neg hie]
  obtain ⟨e1, hl1, hp1⟩ := execute_all_exit_actions_log env
    { ctx with is_exit := true, new_state := true } (get_topmost_of env ctx.executing ns)
  rcases hex : execute_all_exit_actions env { ctx with is_exit := true, new_state := true }
    (get_topmost_of env ctx.executing ns) with ⟨b1, c1⟩
  rw [hex] at hl1
  simp only at hl1
  cases b1
  · simp only [Bool.false_eq_true, if_false]
    obtain ⟨e2, hl2, hp2⟩ := self_hook_step_log ns (env.exit ns) (HookEv.exit ns) c1 rfl
    rcases hsx : self_hook_step ns (env.exit ns) (HookEv.exit ns) c1 with ⟨b2, c2⟩
    rw [hsx] at hl2
    simp only at hl2
    cases b2
    · simp only [Bool.false_eq_true, if_false]
      obtain ⟨e3, hl3, hp3⟩ := self_hook_step_log ns (env.entry ns) (HookEv.entry ns)
        { c2 with is_exit := false } rfl
      rcases hse : self_hook_step ns (env.entry ns) (HookEv.entry ns)
        { c2 with is_exit := false } with ⟨b3, c3⟩
      rw [hse] at hl3
      simp only at hl3
      cases b3
      · simp only [Bool.false_eq_true, if_false]
        obtain ⟨e4, hl4, hp4⟩ := execute_all_entry_actions_log env
          { c3 with
            previous := c3.current
            current := some (resolve_initial env env.fuel ns)
            executing := some (resolve_initial env env.fuel ns) }
          (resolve_initial env env.fuel ns) (get_topmost_of env ctx.executing ns)
        refine ⟨e1 ++ (e2 ++ (e3 ++ e4)), ?_, ?_⟩
        · rw [show ∀ c3v : SmfCtx, ({ c3v with
              previous := c3v.current
              current := some (resolve_initial env env.fuel ns)
              executing := some (resolve_initial env env.fuel ns) } : SmfCtx).log = c3v.log
            from fun c3v => rfl] at hl4
          rw [hl4, hl3, hl2, hl1]
          simp [List.append_assoc]
        · intro e he
          rcases List.mem_append.mp he with he | he
          · exact hp1 e he
          rcases List.mem_append.mp he with he | he
          · exact hp2 e he
          rcases List.mem_append.mp he with he | he
          · exact hp3 e he
          · exact hp4 e he
      · refine ⟨e1 ++ (e2 ++ e3), by simp [hl3, hl2, hl1, List.append_assoc], ?_⟩
        intro e he
        rcases List.mem_append.mp he with he | he
        · exact hp1 e he
        rcases List.mem_append.mp he with he | he
        · exact hp2 e he
        · exact hp3 e he
    · refine ⟨e1 ++ e2, by simp [hl2, hl1, List.append_assoc], ?_⟩
      intro e he
      rcases List.mem_append.mp he with he | he
      · exact hp1 e he
      · exact hp2 e he
  · exact ⟨e1, by simpa using hl1, hp1⟩

/-- After a completed transition (which set the `new_state` flag), the
ancestor run walk at the end of `smf_run_state` does not run and the
dispatch tail leaves the log unchanged. -/
theorem run_tail_log (env : SmfEnv) (c : SmfCtx) (hns : c.new_state = true) :
    ((if (execute_ancestor_run_actions env c).1 = true then
        ((execute_ancestor_run_actions env c).2.terminate_val,
          (execute_ancestor_run_actions env c).2)
      else (0, (execute_ancestor_run_actions env c).2)) : Int × SmfCtx).2.log = c.log := by
  unfold execute_ancestor_run_actions
  by_cases hct : c.terminate = true
  · simp [hct]
  · simp [hct, hns]

/-- Claim C6: in one dispatch cycle, (a) if the current leaf's run hook
returns Handled exactly one run hook is invoked (no ancestor run fires);
(b) if the leaf propagates without requesting a transition and its
immediate parent's run hook returns Handled, exactly two run hooks are
invoked, the leaf's first and the parent's second; (c) if the leaf's run
hook requests a transition, the ancestor walk stops even though the hook
propagated — everything the cycle adds to the log beyond the leaf's own
run event consists of entry/exit events only; (d) if an ancestor's run
hook sets the termination flag, the walk stops there (a grandparent with a
run hook is never invoked) and the dispatch call returns the termination
value. -/
theorem smf_claim_C6 :
    (∀ (env : SmfEnv) (ctx : SmfCtx) (L : Nat),
      ctx.terminate = false → ctx.current = some L →
      env.run L = some (RunAct.ret SmfResult.handled) →
      smf_run_state env ctx =
        (0,
          { ctx with
            new_state := false
            terminate := false
            is_exit := false
            handled := true
            executing := some L
            log := ctx.log ++ [HookEv.run L] })) ∧
    (∀ (env : SmfEnv) (ctx : SmfCtx) (L P : Nat),
      ctx.terminate = false → ctx.current = some L →
      env.run L = some (RunAct.ret SmfResult.propagate) →
      env.parent L = some P →
      env.run P = some (RunAct.ret SmfResult.handled) →
      0 < env.fuel →
      smf_run_state env ctx =
        (0,
          { ctx with
            new_state := false
            terminate := false
            is_exit := false
            handled := true
            executing := some L
            log := ctx.log ++ [HookEv.run L, HookEv.run P] })) ∧
    (∀ (env : SmfEnv) (ctx : SmfCtx) (L T : Nat) (rr : SmfResult),
      ctx.terminate = false → ctx.current = some L →
      env.run L = some (RunAct.trans T rr) →
      ∃ ext, (smf_run_state env ctx).2.log = ctx.log ++ [HookEv.run L] ++ ext ∧
        ∀ e ∈ ext, is_phase_ev e = true) ∧
    (∀ (env : SmfEnv) (ctx : SmfCtx) (L P : Nat) (v : Int) (rr : SmfResult),
      ctx.terminate = false → ctx.current = some L →
      env.run L = some (RunAct.ret SmfResult.propagate) →
      env.parent L = some P →
      env.run P = some (RunAct.term v rr) →
      0 < env.fuel →
      (smf_run_state env ctx).1 = v ∧
      (smf_run_state env ctx).2.log = ctx.log ++ [HookEv.run L, HookEv.run P]) := by
  refine ⟨?_, ?_, ?_, ?_⟩
  · intro env ctx L ht hcur hrun
    obtain ⟨cu, pr, exe, tv, nsf, tm, ie, hd, lg⟩ := ctx
    simp only at ht hcur ⊢
    subst ht
    subst hcur
    simp [smf_run_state, clear_internal_state, hrun, run_run_act,
      execute_ancestor_run_actions]
  · intro env ctx L P ht hcur hrunL hpar hrunP hf
    obtain ⟨cu, pr, exe, tv, nsf, tm, ie, hd, lg⟩ := ctx
    simp only at ht hcur ⊢
    subst ht
    subst hcur
    obtain ⟨f, hfe⟩ : ∃ f, env.fuel = f + 1 := ⟨env.fuel - 1, by omega⟩
    simp [smf_run_state, clear_internal_state, hrunL, run_run_act,
      execute_ancestor_run_actions, hpar, hfe, ancestor_run_loop, hrunP]
  · intro env ctx L T rr ht hcur hrun
    obtain ⟨cu, pr, exe, tv, nsf, tm, ie, hd, lg⟩ := ctx
    simp only at ht hcur ⊢
    subst ht
    subst hcur
    obtain ⟨ext, hl, hp⟩ := smf_set_state_log env
      { current := some L, previous := pr, executing := some L, terminate_val := tv,
        new_state := false, terminate := false, is_exit := false, handled := false,
        log := lg ++ [HookEv.run L] } (some T)
    have hns := smf_set_state_new_state env
      { current := some L, previous := pr, executing := some L, terminate_val := tv,
        new_state := false, terminate := false, is_exit := false, handled := false,
        log := lg ++ [HookEv.run L] } T rfl
    rcases hset : smf_set_state env
      { current := some L, previous := pr, executing := some L, terminate_val := tv,
        new_state := false, terminate := false, is_exit := false, handled := false,
        log := lg ++ [HookEv.run L] } (some T) with ⟨rc, c1⟩
    rw [hset] at hl hns
    simp only at hl hns
    refine ⟨ext, ?_, hp⟩
    simp only [smf_run_state, Bool.false_eq_true, if_false, clear_internal_state, hrun,
      run_run_act, hset]
    cases rr
    · rw [run_tail_log env _ (by simpa using hns)]
      simpa using hl
    · rw [run_tail_log env _ (by simpa using hns)]
      simpa using hl
  · intro env ctx L P v rr ht hcur hrunL hpar hrunP hf
    obtain ⟨cu, pr, exe, tv, nsf, tm, ie, hd, lg⟩ := ctx
    simp only at ht hcur ⊢
    subst ht
    subst hcur
    obtain ⟨f, hfe⟩ : ∃ f, env.fuel = f + 1 := ⟨env.fuel - 1, by omega⟩
    cases rr <;>
      simp [smf_run_state, clear_internal_state, hrunL, run_run_act,
        execute_ancestor_run_actions, hpar, hfe, ancestor_run_loop, hrunP,
        smf_set_terminate, List.append_assoc]

/-! ### The `executing = current` invariant of the dispatch cycle -/

theorem run_hook_act_exec (ev : HookEv) (act : HookAct) (ctx : SmfCtx) :
    (run_hook_act ev act ctx).executing = ctx.executing := by
  cases act <;> simp [run_hook_act, smf_set_terminate]

theorem self_hook_step_exec (ns : Nat) (hk : Option HookAct) (ev : HookEv) (ctx : SmfCtx) :
    (self_hook_step ns hk ev ctx).2.executing = ctx.executing := by
  unfold self_hook_step
  split
  · cases hk with
    | none => rfl
    | some act => simp [run_hook_act_exec]
  · rfl

theorem entry_step_abort_exec (env : SmfEnv) (s : Nat) (ctx : SmfCtx)
    (h : (entry_step env s ctx).1 = true) :
    (entry_step env s ctx).2.executing = (entry_step env s ctx).2.current := by
  unfold entry_step at h ⊢
  cases henv : env.entry s with
  | none => rw [henv] at h; simp at h
  | some act =>
    rw [henv] at h
    by_cases hterm :
        (run_hook_act (HookEv.entry s) act { ctx with executing := some s }).terminate = true
    · simp [hterm]
    · simp [hterm] at h

theorem entry_loop_abort_exec (env : SmfEnv) :
    ∀ (fuel : Nat) (c : Option Nat) (n : Nat) (ctx : SmfCtx),
      (entry_loop env fuel c n ctx).1 = true →
      (entry_loop env fuel c n ctx).2.executing = (entry_loop env fuel c n ctx).2.current := by
  intro fuel
  induction fuel with
  | zero => intro c n ctx h; cases c <;> simp [entry_loop] at h
  | succ f ih =>
    intro c n ctx h
    cases c with
    | none => simp [entry_loop] at h
    | some s =>
      simp only [entry_loop] at h ⊢
      by_cases hsn : s = n
      · rw [if_pos hsn] at h
        simp at h
      · rw [if_neg hsn] at h ⊢
        rcases hst : (entry_step env s ctx).1 with _ | _
        · rw [hst] at h
          simp only [Bool.false_eq_true, if_false] at h ⊢
          exact ih _ n _ h
        · rw [hst] at h
          simp only [if_true]
          exact entry_step_abort_exec env s ctx hst

theorem execute_all_entry_actions_exec (env : SmfEnv) (ctx : SmfCtx) (n : Nat)
    (t : Option Nat) (hnt : (some n : Option Nat) ≠ t) :
    (execute_all_entry_actions env ctx n t).2.executing =
      (execute_all_entry_actions env ctx n t).2.current := by
  unfold execute_all_entry_actions
  rw [if_neg hnt]
  rcases hlr : (entry_loop env env.fuel (get_child_of env env.fuel (some n) t) n ctx).1
    with _ | _
  · simp only [hlr, Bool.false_eq_true, if_false]
    rcases hst : (entry_step env n
      (entry_loop env env.fuel (get_child_of env env.fuel (some n) t) n ctx).2).1 with _ | _
    · simp only [hst, Bool.false_eq_true, if_false]
    · simp only [hst, if_true]
      exact entry_step_abort_exec env n _ hst
  · simp only [hlr, if_true]
    exact entry_loop_abort_exec env env.fuel _ n ctx hlr

theorem smf_set_state_exec (env : SmfEnv) (ctx : SmfCtx) (t : Option Nat) :
    ((smf_set_state env ctx t).2.executing = ctx.executing ∧
     (smf_set_state env ctx t).2.current = ctx.current) ∨
    (smf_set_state env ctx t).2.executing = (smf_set_state env ctx t).2.current := by
  rcases t with _ | ns
  · left; exact ⟨rfl, rfl⟩
  by_cases hie : ctx.is_exit = true
  · left
    constructor <;> simp [smf_set_state, hie]
  simp only [smf_set_state, if_neg hie]
  rcases hex : execute_all_exit_actions env { ctx with is_exit := true, new_state := true }
    (get_topmost_of env ctx.executing ns) with ⟨b1, c1⟩
  have hc1e : c1.executing = ctx.executing := by
    have h := execute_all_exit_actions_exec env
      { ctx with is_exit := true, new_state := true } (get_topmost_of env ctx.executing ns)
    rw [hex] at h
    exact h
  have hc1c : c1.current = ctx.current := by
    have h := execute_all_exit_actions_stable env
      { ctx with is_exit := true, new_state := true } (get_topmost_of env ctx.executing ns)
    rw [hex] at h
    exact h.1
  cases b1
  · simp only [Bool.false_eq_true, if_false]
    rcases hsx : self_hook_step ns (env.exit ns) (HookEv.exit ns) c1 with ⟨b2, c2⟩
    have hc2e : c2.executing = ctx.executing := by
      have h := self_hook_step_exec ns (env.exit ns) (HookEv.exit ns) c1
      rw [hsx] at h
      exact h.trans hc1e
    have hc2c : c2.current = ctx.current := by
      have h := self_hook_step_stable ns (env.exit ns) (HookEv.exit ns) c1
      rw [hsx] at h
      exact h.1.trans hc1c
    cases b2
    · simp only [Bool.false_eq_true, if_false]
      rcases hse : self_hook_step ns (env.entry ns) (HookEv.entry ns)
        { c2 with is_exit := false } with ⟨b3, c3⟩
      have hc3e : c3.executing = ctx.executing := by
        have h := self_hook_step_exec ns (env.entry ns) (HookEv.entry ns)
          { c2 with is_exit := false }
        rw [hse] at h
        exact h.trans hc2e
      have hc3c : c3.current = ctx.current := by
        have h := self_hook_step_stable ns (env.entry ns) (HookEv.entry ns)
          { c2 with is_exit := false }
        rw [hse] at h
        exact h.1.trans hc2c
      cases b3
      · simp only [Bool.false_eq_true, if_false]
        right
        by_cases htp : (some (resolve_initial env env.fuel ns) : Option Nat) =
            get_topmost_of env ctx.executing ns
        · have : execute_all_entry_actions env
              { c3 with
                previous := c3.current
                current := some (resolve_initial env env.fuel ns)
                executing := some (resolve_initial env env.fuel ns) }
              (resolve_initial env env.fuel ns) (get_topmost_of env ctx.executing ns) =
              (false,
                { c3 with
                  previous := c3.current
                  current := some (resolve_initial env env.fuel ns)
                  executing := some (resolve_initial env env.fuel ns) }) := by
            unfold execute_all_entry_actions
            rw [if_pos htp]
          rw [this]
        · have h := execute_all_entry_actions_exec env
            { c3 with
              previous := c3.current
              current := some (resolve_initial env env.fuel ns)
              executing := some (resolve_initial env env.fuel ns) }
            (resolve_initial env env.fuel ns) (get_topmost_of env ctx.executing ns) htp
          exact h
      · left
        exact ⟨hc3e, hc3c⟩
    · left
      exact ⟨hc2e, hc2c⟩
  · left
    exact ⟨hc1e, hc1c⟩

theorem run_run_act_exec (env : SmfEnv) (s : Nat) (act : RunAct) (ctx : SmfCtx)
    (h : ctx.executing = ctx.current) :
    (run_run_act env s act ctx).2.executing = (run_run_act env s act ctx).2.current := by
  unfold run_run_act
  cases act with
  | ret r => simpa using h
  | term v r => simpa [smf_set_terminate] using h
  | trans t r =>
    simp only
    rcases smf_set_state_exec env { ctx with log := ctx.log ++ [HookEv.run s] } (some t)
      with ⟨h1, h2⟩ | h1
    · rw [h1, h2]
      simpa using h
    · exact h1

theorem ancestor_run_loop_exec (env : SmfEnv) :
    ∀ (fuel : Nat) (c : Option Nat) (ctx : SmfCtx),
      (ancestor_run_loop env fuel c ctx).2.executing =
        (ancestor_run_loop env fuel c ctx).2.current := by
  intro fuel
  induction fuel with
  | zero => intro c ctx; cases c <;> simp [ancestor_run_loop]
  | succ f ih =>
    intro c ctx
    cases c with
    | none => simp [ancestor_run_loop]
    | some s =>
      simp only [ancestor_run_loop]
      cases henv : env.run s with
      | none => exact ih _ _
      | some act =>
        simp only
        split
        all_goals
          split
          · simp
          · split
            · simp
            · exact ih _ _

theorem execute_ancestor_run_actions_exec (env : SmfEnv) (ctx : SmfCtx)
    (h : ctx.executing = ctx.current) :
    (execute_ancestor_run_actions env ctx).2.executing =
      (execute_ancestor_run_actions env ctx).2.current := by
  unfold execute_ancestor_run_actions
  by_cases hct : ctx.terminate = true
  · simpa [hct] using h
  · simp only [hct, Bool.false_eq_true, if_false]
    by_cases hnh : (ctx.new_state || ctx.handled) = true
    · simpa [hnh] using h
    · simp only [hnh, Bool.false_eq_true, if_false]
      cases hcur : ctx.current with
      | none => simp
      | some c => exact ancestor_run_loop_exec env env.fuel (env.parent c) ctx

/-- Claim C10: whenever `smf_run_state` returns (starting from a
non-terminated context, the only way a dispatch cycle is entered),
`ctx.executing` equals `ctx.current`: every internal hook walk restores the
executing pointer before the cycle ends, including on early aborts due to
termination, so between dispatch cycles the currently-executing state
accessor always reports the current leaf. -/
theorem smf_claim_C10 (env : SmfEnv) (ctx : SmfCtx) (ht : ctx.terminate = false) :
    (smf_run_state env ctx).2.executing = (smf_run_state env ctx).2.current := by
  simp only [smf_run_state, ht, Bool.false_eq_true, if_false, clear_internal_state]
  rcases hcur : ctx.current with _ | c
  · simp only [hcur]
    rcases hanc : execute_ancestor_run_actions env
      { ctx with
        current := none, is_exit := false, terminate := false, handled := false,
        new_state := false, executing := none } with ⟨b, c1⟩
    have h := execute_ancestor_run_actions_exec env
      { ctx with
        current := none, is_exit := false, terminate := false, handled := false,
        new_state := false, executing := none }
      (by simp)
    rw [hanc] at h
    cases b <;> simpa [hanc] using h
  · simp only [hcur]
    cases henv : env.run c with
    | none =>
      rcases hanc : execute_ancestor_run_actions env
        { ctx with
          current := some c, is_exit := false, terminate := false, handled := false,
          new_state := false, executing := some c } with ⟨b, c1⟩
      have h := execute_ancestor_run_actions_exec env
        { ctx with
          current := some c, is_exit := false, terminate := false, handled := false,
          new_state := false, executing := some c }
        (by simp)
      rw [hanc] at h
      cases b <;> simpa [hanc] using h
    | some act =>
      have hrr := run_run_act_exec env c act
        { ctx with
          current := some c, is_exit := false, terminate := false, handled := false,
          new_state := false, executing := some c }
        (by simp)
      rcases hr : run_run_act env c act
        { ctx with
          current := some c, is_exit := false, terminate := false, handled := false,
          new_state := false, executing := some c } with ⟨rc, c2⟩
      rw [hr] at hrr
      simp only at hrr
      have step2 : ∀ c3 : SmfCtx, c3.executing = c3.current →
          ((if (execute_ancestor_run_actions env c3).1 = true then
              ((execute_ancestor_run_actions env c3).2.terminate_val,
                (execute_ancestor_run_actions env c3).2)
            else (0, (execute_ancestor_run_actions env c3).2)) : Int × SmfCtx).2.executing =
          ((if (execute_ancestor_run_actions env c3).1 = true then
              ((execute_ancestor_run_actions env c3).2.terminate_val,
                (execute_ancestor_run_actions env c3).2)
            else (0, (execute_ancestor_run_actions env c3).2)) : Int × SmfCtx).2.current := by
        intro c3 h3
        have h := execute_ancestor_run_actions_exec env c3 h3
        cases hb : (execute_ancestor_run_actions env c3).1 <;> simpa [hb] using h
      by_cases hrc : rc = SmfResult.handled
      · simp only [hr, hrc, if_true]
        exact step2 _ (by simpa using hrr)
      · simp only [hr, if_neg hrc]
        exact step2 _ hrr

/-- Walking a parent chain looking for `t` (`smf__is_descendant_of`) is
membership of `t` in the ancestor chain of the cursor. -/
theorem is_descendant_of_eq_decide_mem (env : SmfEnv) (fuel : Nat) :
    ∀ (cursor : Option Nat) (t : Nat),
      is_descendant_of env fuel cursor (some t) = decide (t ∈ opt_chain env fuel cursor) := by
  induction fuel with
  | zero => intro cursor t; cases cursor <;> simp [is_descendant_of, opt_chain]
  | succ n ih =>
    intro cursor t
    cases cursor with
    | none => simp [is_descendant_of, opt_chain]
    | some s =>
      simp only [is_descendant_of, opt_chain, List.mem_cons]
      rw [ih]
      by_cases h : t = s
      · subst h; simp
      · simp [h, Option.some.injEq]

/-- The loop of `smf__get_lca_of` is `List.find?` over the ancestor chain of
the cursor, with "the destination descends from the candidate" as the
predicate. -/
theorem lca_loop_eq_find (env : SmfEnv) (fuel : Nat) :
    ∀ (cursor : Option Nat) (d : Nat),
      lca_loop env fuel cursor d =
        (opt_chain env fuel cursor).find?
          (fun a => is_descendant_of env env.fuel (some d) (some a)) := by
  induction fuel with
  | zero => intro cursor d; cases cursor <;> simp [lca_loop, opt_chain]
  | succ n ih =>
    intro cursor d
    cases cursor with
    | none => simp [lca_loop, opt_chain]
    | some a =>
      simp only [lca_loop, opt_chain]
      cases hb : is_descendant_of env env.fuel (some d) (some a) with
      | false => rw [List.find?_cons_of_neg _ (by simp [hb]), if_neg (by simp [hb]), ih]
      | true => rw [List.find?_cons_of_pos _ (by simp [hb]), if_pos (by simp [hb])]

/-- C4 (counterexample): with `Root(0) > Leaf(1)`, current leaf `1`, and the
root's run hook requesting a transition to `1`, the claim's rule (computed
from the current leaf `ctx.current = 1`) yields boundary `1`, under which
state `1` would be excluded from both chains; but the code computes the
boundary from `ctx.executing = 0` (the state whose hook requested the
transition), yields boundary `0`, and the dispatch fires `Exit 1, Entry 1`. -/
theorem smf_claim_C4_counterexample :
    topmost_per_claim envC4 1 1 = some 1 ∧
    get_topmost_of envC4 (some 0) 1 = some 0 ∧
    (smf_run_state envC4 ctxC4).2.log =
      [HookEv.run 1, HookEv.run 0, HookEv.exit 1, HookEv.entry 1] ∧
    get_topmost_of envC4 (some 0) 1 ≠ topmost_per_claim envC4 1 1 := by
  decide

/-- C4 (amended): the boundary ("topmost") state is computed from
`ctx.executing` — the state whose hook requested the transition — not from
the current leaf: it is the destination if the destination is an ancestor
of (or equal to) the requester, the requester if the requester is an
ancestor of (or equal to) the destination, and otherwise the first proper
ancestor of the requester from which the destination descends (their LCA). -/
theorem smf_claim_C4_amended (env : SmfEnv) (e d : Nat) :
    get_topmost_of env (some e) d = spec_topmost_exec env e d := by
  have h1 := is_descendant_of_eq_decide_mem env env.fuel (some e) d
  have h2 := is_descendant_of_eq_decide_mem env env.fuel (some d) e
  simp only [get_topmost_of, spec_topmost_exec, get_lca_of, h1, h2, decide_eq_true_eq]
  by_cases m1 : d ∈ opt_chain env env.fuel (some e)
  · simp [m1]
  · by_cases m2 : e ∈ opt_chain env env.fuel (some d)
    · simp [m1, m2]
    · simp only [m1, m2, if_false]
      rw [lca_loop_eq_find]
      congr 1
      funext a
      rw [is_descendant_of_eq_decide_mem env env.fuel (some d) a]

/-- `Machine::transition` never touches the transition counter. -/
theorem hsm_transition_tcount (env : HsmEnv) (m : HsmMachine) (t : Nat) (m' : HsmMachine)
    (h : hsm_transition env m t = Except.ok m') : m'.tcount = m.tcount := by
  unfold hsm_transition at h
  split at h
  · simp at h
  · split at h
    · simp only [Except.ok.injEq] at h
      subst h; rfl
    · simp at h

/-- Entry/exit hooks never touch the transition counter. -/
theorem hsm_apply_act_tcount (env : HsmEnv) (ev : HookEv) (act : HAct) (m m' : HsmMachine)
    (h : hsm_apply_act env ev act m = Except.ok m') : m'.tcount = m.tcount := by
  cases act with
  | nop =>
    simp only [hsm_apply_act, Except.ok.injEq] at h
    subst h; rfl
  | stop =>
    simp only [hsm_apply_act, Except.ok.injEq] at h
    subst h; rfl
  | trans t =>
    simp only [hsm_apply_act] at h
    exact hsm_transition_tcount env { m with log := m.log ++ [ev] } t m' h

/-- `handle` hooks never touch the transition counter. -/
theorem hsm_apply_run_tcount (env : HsmEnv) (s : Nat) (act : HRunAct) (m : HsmMachine)
    (r : HResult) (m' : HsmMachine)
    (h : hsm_apply_run env s act m = Except.ok (r, m')) : m'.tcount = m.tcount := by
  cases act with
  | ret r2 =>
    simp only [hsm_apply_run, Except.ok.injEq, Prod.mk.injEq] at h
    obtain ⟨-, h⟩ := h
    subst h; rfl
  | stop r2 =>
    simp only [hsm_apply_run, Except.ok.injEq, Prod.mk.injEq] at h
    obtain ⟨-, h⟩ := h
    subst h; rfl
  | trans t r2 =>
    simp only [hsm_apply_run] at h
    cases ht : hsm_transition env { m with log := m.log ++ [HookEv.run s] } t with
    | error e => rw [ht] at h; simp at h
    | ok m2 =>
      rw [ht] at h
      simp only [Except.ok.injEq, Prod.mk.injEq] at h
      obtain ⟨-, h⟩ := h
      subst h
      exact hsm_transition_tcount env { m with log := m.log ++ [HookEv.run s] } t _ ht

/-- The exit loop of `do_transition` never touches the transition counter. -/
theorem hsm_exit_walk_tcount (env : HsmEnv) :
    ∀ (fuel s common : Nat) (m : HsmMachine) (b : Bool) (m' : HsmMachine),
      hsm_exit_walk env fuel s common m = Except.ok (b, m') → m'.tcount = m.tcount := by
  intro fuel
  induction fuel with
  | zero =>
    intro s common m b m' h
    simp only [hsm_exit_walk, Except.ok.injEq, Prod.mk.injEq] at h
    obtain ⟨-, h⟩ := h
    subst h; rfl
  | succ n ih =>
    intro s common m b m' h
    simp only [hsm_exit_walk] at h
    split at h
    · simp only [Except.ok.injEq, Prod.mk.injEq] at h
      obtain ⟨-, h⟩ := h
      subst h; rfl
    · cases ha : hsm_apply_act env (HookEv.exit s) (env.exit s)
        { m with executing := some s } with
      | error e => rw [ha] at h; simp at h
      | ok m2 =>
        rw [ha] at h
        simp only at h
        have h2 : m2.tcount = m.tcount :=
          hsm_apply_act_tcount env _ _ { m with executing := some s } m2 ha
        split at h
        · simp only [Except.ok.injEq, Prod.mk.injEq] at h
          obtain ⟨-, h⟩ := h
          subst h
          exact h2
        · have h3 := ih _ _ _ _ _ h
          rw [h3]
          exact h2

/-- The entry loop of `do_transition` never touches the transition counter. -/
theorem hsm_entry_walk_tcount (env : HsmEnv) :
    ∀ (path : List Nat) (dest : Nat) (m m' : HsmMachine),
      hsm_entry_walk env path dest m = Except.ok m' → m'.tcount = m.tcount := by
  intro path
  induction path with
  | nil =>
    intro dest m m' h
    simp only [hsm_entry_walk, Except.ok.injEq] at h
    subst h; rfl
  | cons s rest ih =>
    intro dest m m' h
    simp only [hsm_entry_walk] at h
    cases ha : hsm_apply_act env (HookEv.entry s) (env.entry s)
      { m with executing := some s } with
    | error e => rw [ha] at h; simp at h
    | ok m2 =>
      rw [ha] at h
      simp only at h
      have h2 : m2.tcount = m.tcount :=
        hsm_apply_act_tcount env _ _ { m with executing := some s } m2 ha
      split at h
      · simp only [Except.ok.injEq] at h
        subst h
        exact h2
      · split at h
        · simp only [Except.ok.injEq] at h
          subst h
          exact h2
        · have h3 := ih _ _ _ h
          rw [h3]
          exact h2

/-- `Machine::do_transition` never touches the transition counter: it is
incremented only by the drain loop of `process_pending`. -/
theorem hsm_do_transition_tcount (env : HsmEnv) (m : HsmMachine) (dest : Nat)
    (m' : HsmMachine) (h : hsm_do_transition env m dest = Except.ok m') :
    m'.tcount = m.tcount := by
  simp only [hsm_do_transition] at h
  split at h
  · cases ha : hsm_apply_act env (HookEv.exit _) (env.exit _)
      { m with executing := some (match m.phase, m.executing with
          | HsmPhase.entry, some e => e
          | _, _ => m.active) } with
    | error e => rw [ha] at h; simp at h
    | ok m2 =>
      rw [ha] at h
      simp only at h
      have h2 := hsm_apply_act_tcount env _ _ _ m2 ha
      split at h
      · simp only [Except.ok.injEq] at h
        subst h
        exact h2
      · have h3 := hsm_apply_act_tcount env _ _ { m2 with executing := some dest } m' h
        rw [h3]
        exact h2
  · cases hw : hsm_exit_walk env env.fuel
      (match m.phase, m.executing with
        | HsmPhase.entry, some e => e
        | _, _ => m.active)
      (hsm_lca env (match m.phase, m.executing with
        | HsmPhase.entry, some e => e
        | _, _ => m.active) dest)
      { m with phase := HsmPhase.exit } with
    | error e => rw [hw] at h; simp at h
    | ok p =>
      obtain ⟨b, m2⟩ := p
      rw [hw] at h
      have h2 : m2.tcount = m.tcount :=
        hsm_exit_walk_tcount env _ _ _ { m with phase := HsmPhase.exit } _ _ hw
      cases b with
      | true =>
        simp only [Except.ok.injEq] at h
        subst h
        exact h2
      | false =>
        simp only at h
        split at h
        · cases he : hsm_entry_walk env
            (hsm_down_path env env.fuel dest (hsm_lca env (match m.phase, m.executing with
              | HsmPhase.entry, some e => e
              | _, _ => m.active) dest)) dest
            { m2 with phase := HsmPhase.entry } with
          | error e => rw [he] at h; simp at h
          | ok m3 =>
            rw [he] at h
            simp only [Except.ok.injEq] at h
            subst h
            have h3 : m3.tcount = m2.tcount :=
              hsm_entry_walk_tcount env _ _ { m2 with phase := HsmPhase.entry } _ he
            simpa [h3] using h2
        · simp only [Except.ok.injEq] at h
          subst h
          simpa using h2

/-- The propagation loop of `Machine::handle` never touches the transition
counter. -/
theorem hsm_handle_walk_tcount (env : HsmEnv) :
    ∀ (fuel : Nat) (cursor : Option Nat) (m m' : HsmMachine),
      hsm_handle_walk env fuel cursor m = Except.ok m' → m'.tcount = m.tcount := by
  intro fuel
  induction fuel with
  | zero =>
    intro cursor m m' h
    cases cursor <;>
      · simp only [hsm_handle_walk, Except.ok.injEq] at h
        subst h; rfl
  | succ n ih =>
    intro cursor m m' h
    cases cursor with
    | none =>
      simp only [hsm_handle_walk, Except.ok.injEq] at h
      subst h; rfl
    | some s =>
      simp only [hsm_handle_walk] at h
      cases hr : hsm_apply_run env s (env.handle s) { m with executing := some s } with
      | error e => rw [hr] at h; simp at h
      | ok p =>
        obtain ⟨r, m2⟩ := p
        rw [hr] at h
        simp only at h
        have h2 : m2.tcount = m.tcount :=
          hsm_apply_run_tcount env s _ { m with executing := some s } r m2 hr
        split at h
        · simp only [Except.ok.injEq] at h
          subst h
          exact h2
        · split at h
          · simp only [Except.ok.injEq] at h
            subst h
            exact h2
          · have h3 := ih _ _ _ h
            rw [h3]
            exact h2

/-- The drain loop of `Machine::process_pending` performs at most
`100 - count` further transitions before returning. -/
theorem hsm_process_pending_loop_tcount (env : HsmEnv) :
    ∀ (fuel : Nat) (m : HsmMachine) (count : Nat) (m' : HsmMachine),
      hsm_process_pending_loop env fuel m count = Except.ok m' →
      m'.tcount ≤ m.tcount + (100 - count) := by
  intro fuel
  induction fuel with
  | zero =>
    intro m count m' h
    simp only [hsm_process_pending_loop, Except.ok.injEq] at h
    subst h
    omega
  | succ n ih =>
    intro m count m' h
    simp only [hsm_process_pending_loop] at h
    split at h
    · split at h
      · simp at h
      · rename_i hcnt
        cases hp : m.pending with
        | none =>
          rw [hp] at h
          simp only [Except.ok.injEq] at h
          subst h
          omega
        | some dest =>
          rw [hp] at h
          simp only at h
          cases hd : hsm_do_transition env
            { m with has_pending := false, pending := none, tcount := m.tcount + 1 } dest with
          | error e => rw [hd] at h; simp at h
          | ok m2 =>
            rw [hd] at h
            have h2 : m2.tcount = m.tcount + 1 :=
              hsm_do_transition_tcount env
                { m with has_pending := false, pending := none, tcount := m.tcount + 1 }
                dest m2 hd
            have h3 := ih _ _ _ h
            rw [h2] at h3
            omega
    · simp only [Except.ok.injEq] at h
      subst h
      omega

set_option maxRecDepth 20000 in
/-- C2: a transition requested from inside an entry or run hook is deferred:
`Machine::transition` only records the target in the pending slot (it runs no
hook and never re-enters `do_transition`); the number of transitions
processed per dispatch call is bounded by the constant 100 (witnessed by the
ghost counter `tcount`); and exceeding the bound is reported as the fatal
`loopExceeded` error, as the two mutually entry-transitioning states of
`hsmCycEnv` demonstrate. -/
theorem hsm_claim_C2 (env : HsmEnv) :
    (∀ (m : HsmMachine) (t : Nat), m.phase ≠ HsmPhase.exit → env.registered t = true →
      hsm_transition env m t = Except.ok { m with pending := some t, has_pending := true }) ∧
    (∀ (m m' : HsmMachine), hsm_handle env m = Except.ok m' → m'.tcount ≤ m.tcount + 100) ∧
    hsm_start hsmCycEnv 1 = Except.error HErr.loopExceeded := by
  refine ⟨?_, ?_, ?_⟩
  · intro m t h1 h2
    simp [hsm_transition, h1, h2]
  · intro m m' h
    simp only [hsm_handle] at h
    split at h
    · simp only [Except.ok.injEq] at h
      subst h
      omega
    · cases hw : hsm_handle_walk env env.fuel (some m.active)
        { m with handled := false, phase := HsmPhase.run } with
      | error e => rw [hw] at h; simp at h
      | ok m2 =>
        rw [hw] at h
        simp only [hsm_process_pending] at h
        have h2 : m2.tcount = m.tcount :=
          hsm_handle_walk_tcount env _ _ { m with handled := false, phase := HsmPhase.run } m2 hw
        have h3 := hsm_process_pending_loop_tcount env 101
          { m2 with phase := HsmPhase.idle } 0 m' h
        have h4 : m'.tcount ≤ m2.tcount + 100 := by simpa using h3
        omega
  · rfl

/-- Witness for claim C1 at `envW`/`ctxW`: the transition `A(2) → B(3)`
across parent `1` fires `Exit 2` then `Entry 3`, and the boundary is the
LCA. -/
theorem smf_claim_C1_witness :
    smf_set_state envW ctxW (some 3) =
      (0,
        { ctxW with
          new_state := true
          is_exit := false
          previous := some 2
          current := some 3
          executing := some 3
          log := ctxW.log ++ exitEvs envW [2] ++ entryEvs envW [3].reverse }) ∧
    get_topmost_of envW (some 2) 3 = get_lca_of envW 2 3 := by
  have h := smf_claim_C1 envW ctxW 2 3 [2] [3] rfl rfl rfl rfl (by decide) rfl
    (by
      have ht : get_topmost_of envW (some 2) 3 = some 1 := by decide
      rw [ht]
      exact UpChain.cons 2 [] (some 1) (by decide) (UpChain.nil (some 1)))
    (by
      have ht : get_topmost_of envW (some 2) 3 = some 1 := by decide
      rw [ht]
      exact UpChain.cons 3 [] (some 1) (by decide) (UpChain.nil (some 1)))
    (by decide) (by decide) (by decide)
    (fun s _ => Or.inr rfl) (fun s _ => Or.inr rfl)
  exact ⟨h.1, h.2 (by decide) (by decide)⟩

/-- Witness for claim C3 at `envC3`/`ctxW`: leaf `2` requests a transition
to `3`, its own exit hook terminates with `7`; the dispatch returns `7`,
the current leaf is still `2`, and the log ends at `Exit 2`. -/
theorem smf_claim_C3_witness :
    (smf_run_state envC3 ctxW).1 = 7 ∧
    (smf_run_state envC3 ctxW).2.current = some 2 ∧
    (smf_run_state envC3 ctxW).2.previous = ctxW.previous ∧
    (smf_run_state envC3 ctxW).2.terminate = true ∧
    (smf_run_state envC3 ctxW).2.terminate_val = 7 ∧
    (smf_run_state envC3 ctxW).2.log =
      ctxW.log ++ [HookEv.run 2] ++ exitEvs envC3 [] ++ [HookEv.exit 2] :=
  smf_claim_C3 envC3 ctxW 2 3 SmfResult.propagate 7 [] 2 [] rfl rfl rfl
    (by
      have ht : get_topmost_of envC3 (some 2) 3 = some 1 := by decide
      rw [ht]
      exact UpChain.cons 2 [] (some 1) (by decide) (UpChain.nil (some 1)))
    (by decide) (fun s hs => absurd hs (List.not_mem_nil s)) rfl

/-- Witness for claim C5 at `envC5`/`ctxC5`: the transition from leaf `4`
to the composite `1` with initial chain `1 → 2 → 3` fires
`Exit 4, Entry 1, Entry 2, Entry 3` and lands at leaf `3`. -/
theorem smf_claim_C5_witness :
    smf_set_state envC5 ctxC5 (some 1) =
      (0,
        { ctxC5 with
          new_state := true
          is_exit := false
          previous := some 4
          current := some 3
          executing := some 3
          log := ctxC5.log ++ exitEvs envC5 [4] ++ entryEvs envC5 ([] : List Nat).reverse ++
            [HookEv.entry 1, HookEv.entry 2, HookEv.entry 3] }) :=
  smf_claim_C5 envC5 ctxC5 4 1 2 3 [4] [] rfl rfl rfl rfl (by decide) rfl rfl rfl
    (by
      have ht : get_topmost_of envC5 (some 4) 1 = some 0 := by decide
      rw [ht]
      exact UpChain.cons 4 [] (some 0) (by decide) (UpChain.nil (some 0)))
    (by
      have ht : get_topmost_of envC5 (some 4) 1 = some 0 := by decide
      rw [ht]
      exact UpChain.cons 3 [2, 1] (some 0) (by decide)
        (UpChain.cons 2 [1] (some 0) (by decide)
          (UpChain.cons 1 [] (some 0) (by decide) (UpChain.nil (some 0)))))
    (by decide) (by decide) (by decide)
    (fun s _ => Or.inr rfl) (fun s hs => absurd hs (List.not_mem_nil s))
    rfl rfl rfl

/-- Witness for claim C9 at `envC9`/`ctxC9`: transitioning from leaf `1` to
composite `2` (resolved leaf `3`), `2`'s entry hook terminates with `5`;
the operation returns with `current` already at `3` and `previous` at `1`. -/
theorem smf_claim_C9_witness :
    smf_set_state envC9 ctxC9 (some 2) =
      (0,
        { ctxC9 with
          new_state := true
          is_exit := false
          previous := some 1
          current := some 3
          executing := some 3
          terminate := true
          terminate_val := 5
          log := ctxC9.log ++ exitEvs envC9 [1] ++ entryEvs envC9 [] ++ [HookEv.entry 2] }) :=
  smf_claim_C9 envC9 ctxC9 1 2 3 5 [1] [3, 2] [] 2 [3] rfl rfl rfl rfl (by decide) rfl
    (by
      have ht : get_topmost_of envC9 (some 1) 2 = some 0 := by decide
      rw [ht]
      exact UpChain.cons 1 [] (some 0) (by decide) (UpChain.nil (some 0)))
    (by
      have ht : get_topmost_of envC9 (some 1) 2 = some 0 := by decide
      rw [ht]
      exact UpChain.cons 3 [2] (some 0) (by decide)
        (UpChain.cons 2 [] (some 0) (by decide) (UpChain.nil (some 0))))
    (by decide) rfl (by decide) (by decide)
    (fun s _ => Or.inr rfl) (fun s hs => absurd hs (List.not_mem_nil s)) rfl

/-- Witness for claim C7 at `envC7`/`ctxC7`: the self-transition of state
`5` fires exactly `Exit 5, Entry 5`. -/
theorem smf_claim_C7_witness :
    smf_set_state envC7 ctxC7 (some 5) =
      (0,
        { ctxC7 with
          new_state := true
          is_exit := false
          previous := some 5
          current := some 5
          executing := some 5
          log := ctxC7.log ++ [HookEv.exit 5, HookEv.entry 5] }) :=
  smf_claim_C7 envC7 ctxC7 5 rfl rfl rfl rfl rfl rfl rfl (by decide)

/-- Witness for claim C8 (amended) at `envC8`/`ctxC8`: the transition
between the disjoint roots `0` and `1` silently succeeds with
`Exit 0, Entry 1`. -/
theorem smf_claim_C8_amended_witness :
    smf_set_state envC8 ctxC8 (some 1) =
      (0,
        { ctxC8 with
          new_state := true
          is_exit := false
          previous := some 0
          current := some 1
          executing := some 1
          log := ctxC8.log ++ exitEvs envC8 [0] ++ entryEvs envC8 [1].reverse }) :=
  smf_claim_C8_amended envC8 ctxC8 0 1 1 [0] [1] rfl rfl rfl rfl (by decide) (by decide) rfl
    (UpChain.cons 0 [] none (by decide) (UpChain.nil none))
    (UpChain.cons 1 [] none (by decide) (UpChain.nil none))
    (by decide) (by decide) (by decide)
    (fun s _ => Or.inr rfl) (fun s _ => Or.inr rfl)

/-- Witness for claim C10 at `envW`/`ctxW`: after one dispatch cycle the
executing pointer equals the current leaf pointer. -/
theorem smf_claim_C10_witness :
    (smf_run_state envW ctxW).2.executing = (smf_run_state envW ctxW).2.current :=
  smf_claim_C10 envW ctxW rfl

/-- Witness for claim C6 on the four concrete one-cycle configurations:
(a) a handling leaf fires one run hook; (b) a propagating leaf under a
handling root fires two; (c) a transition-requesting leaf stops the walk
and adds only phase events past its own run event; (d) a terminating
ancestor stops the walk and the cycle returns its value. -/
theorem smf_claim_C6_witness :
    smf_run_state envC6a ctxC4 =
      (0,
        { ctxC4 with
          new_state := false
          terminate := false
          is_exit := false
          handled := true
          executing := some 1
          log := ctxC4.log ++ [HookEv.run 1] }) ∧
    smf_run_state envC6b ctxC4 =
      (0,
        { ctxC4 with
          new_state := false
          terminate := false
          is_exit := false
          handled := true
          executing := some 1
          log := ctxC4.log ++ [HookEv.run 1, HookEv.run 0] }) ∧
    (∃ ext, (smf_run_state envC6c ctxC4).2.log = ctxC4.log ++ [HookEv.run 1] ++ ext ∧
      ∀ e ∈ ext, is_phase_ev e = true) ∧
    (smf_run_state envC6d ctxW).1 = 9 ∧
    (smf_run_state envC6d ctxW).2.log = ctxW.log ++ [HookEv.run 2, HookEv.run 1] :=
  ⟨smf_claim_C6.1 envC6a ctxC4 1 rfl rfl rfl,
   smf_claim_C6.2.1 envC6b ctxC4 1 0 rfl rfl rfl rfl rfl (by decide),
   smf_claim_C6.2.2.1 envC6c ctxC4 1 1 SmfResult.propagate rfl rfl rfl,
   smf_claim_C6.2.2.2 envC6d ctxW 2 1 9 SmfResult.propagate rfl rfl rfl rfl rfl (by decide)⟩

/-- Witness for claim C2 at `hsmCycEnv`/`hsmM0`: a transition request from
the idle machine is recorded in the pending slot, and one dispatch from
state `1` (whose handlers all pass) leaves the transition counter within
the bound. -/
theorem hsm_claim_C2_witness :
    hsm_transition hsmCycEnv hsmM0 2 =
      Except.ok { hsmM0 with pending := some 2, has_pending := true } ∧
    ({ active := 1, executing := some 0, pending := none, has_pending := false,
       started := true, terminated := false, handled := false, phase := HsmPhase.idle,
       tcount := 0, log := [HookEv.run 1, HookEv.run 0] } : HsmMachine).tcount ≤
      hsmM0.tcount + 100 :=
  ⟨(hsm_claim_C2 hsmCycEnv).1 hsmM0 2 (by decide) (by decide),
   (hsm_claim_C2 hsmCycEnv).2.1 hsmM0
     { active := 1, executing := some 0, pending := none, has_pending := false,
       started := true, terminated := false, handled := false, phase := HsmPhase.idle,
       tcount := 0, log := [HookEv.run 1, HookEv.run 0] } rfl⟩
